import Mathlib

/-!
Verification of the morty SystemVerilog pickler core against its
natural-language specification.

The development shallowly embeds the relevant functions of
`src/pickle.rs`, `src/lib.rs` and `src/main.rs`:

* the rewrite planner (`rename`, `remove_macros`, `remove_timeunits`,
  `infer_dot_star`) and its replacement table;
* the emitters (`get_replaced_string` and the classic per-file
  replacement loop of `do_pickle`);
* declaration registration (`register_declarations`);
* the dependency graph operations (`prune_graph`, `get_pickle`);
* the library resolver (`load_library_module`).

Source text is modelled as `List Char`; byte spans as `Locate`
records with `offset`/`len`; the external parser's syntax tree is
abstracted into the records the indexer extracts from it.
-/

abbrev Name := String

abbrev Str := List Char

/-- `sv_parser::Locate`, restricted to the fields the pickler uses. -/
structure Locate where
  offset : Nat
  len : Nat
deriving DecidableEq, Repr

/-- `SVConstructType` from `src/pickle.rs`. -/
inductive SVConstructType where
  | Module
  | Interface
  | Package
  | Class
deriving DecidableEq, Repr

def newlineChar : Char := Char.ofNat 10

/- ------------------------------------------------------------------ -/
/- Replacement selection and application: `Pickle::get_replaced_string` -/
/- ------------------------------------------------------------------ -/

/-- The edit-selection pipeline of `get_replaced_string`
(`src/pickle.rs`): keep the entries of the replacement table for
`fileId`, project to `(offset, len, replacement)`, keep those with
`offset > loc.offset`, rebase by subtracting `loc.offset`, and keep
those whose rebased offset is `< loc.len`. -/
def selectReps (tbl : List (Nat × Locate × String)) (fileId : Nat) (loc : Locate) :
    List (Nat × Nat × String) :=
  ((((tbl.filter (fun x => x.1 == fileId)).map
      (fun x => (x.2.1.offset, x.2.1.len, x.2.2))).filter
      (fun x => loc.offset < x.1)).map
      (fun x => (x.1 - loc.offset, x.2.1, x.2.2))).filter
      (fun x => x.1 < loc.len)

/-- Stable insertion (by offset) used to model Rust's stable
`sort_by(|a, b| a.0.cmp(&b.0))`. -/
def insertRep (e : Nat × Nat × String) : List (Nat × Nat × String) → List (Nat × Nat × String)
  | [] => [e]
  | y :: ys => if y.1 < e.1 then y :: insertRep e ys else e :: y :: ys

/-- Stable sort by offset, modelling `replacements.sort_by(|a, b| a.0.cmp(&b.0))`. -/
def sortReps : List (Nat × Nat × String) → List (Nat × Nat × String)
  | [] => []
  | x :: xs => insertRep x (sortReps xs)

/-- The consecutive-pair overlap check of `get_replaced_string`:
passes iff every consecutive pair `(o1,l1), (o2,l2)` satisfies
`o1 + l1 ≤ o2`. -/
def checkOverlaps : List (Nat × Nat × String) → Bool
  | a :: b :: rest => decide (a.1 + a.2.1 ≤ b.1) && checkOverlaps (b :: rest)
  | _ => true

/-- The forward replacement walk of `get_replaced_string`: copy
`[pos, offset)` verbatim, write the replacement, continue at
`offset + len`; finally copy the tail from `pos`. -/
def applyReps (s : Str) : Nat → List (Nat × Nat × String) → Str
  | pos, [] => s.drop pos
  | pos, (o, l, r) :: rest => (s.take o).drop pos ++ r.data ++ applyReps s (o + l) rest

/- ------------------------------------------------------------------ -/
/- The planner state (`Pickle` of `src/pickle.rs`) and its operations  -/
/- ------------------------------------------------------------------ -/

/-- A `.*` named-port-connection wildcard occurrence inside a module
instantiation, as discovered by `infer_dot_star`'s AST walk. -/
structure DotStarInfo where
  target : Name
  loc : Locate
  connected : List Str
deriving DecidableEq, Repr

/-- One parsed file, abstracted to what the planner reads from it:
the preprocessed source text and the spans of the AST nodes each
planner operation reacts to. -/
structure FileModel where
  src : Str
  macros : List Locate
  timeunits : List Locate
  dotStars : List DotStarInfo
deriving DecidableEq, Repr

/-- A registered declaration: file id, span of the whole declaration
(`Locate::try_from(x)`), and span of the identifier token the renamer
resolves through `get_node_from_locate`. -/
structure Decl where
  file : Nat
  header : Locate
  ident : Locate
deriving DecidableEq, Repr

/-- A recorded usage: file id and identifier-token span. -/
structure Usage where
  file : Nat
  ident : Locate
deriving DecidableEq, Repr

/-- The mutable pickler state of `src/pickle.rs`, restricted to the
fields the planner operations read and write. -/
structure PickleState where
  files : List FileModel
  decls : List (Name × Decl)
  usages : Name → List Usage
  ports : Name → List Str
  replaceTable : List (Nat × Locate × String)

/-- `new_string` of `Pickle::rename`: start from the name, prepend the
prefix when present, append the suffix when present. -/
def newName (preO sufO : Option String) (name : Name) : Name :=
  let s1 := match preO with
    | some p => p ++ name
    | none => name
  match sufO with
  | some s => s1 ++ s
  | none => s1

/-- The edits pushed by `Pickle::rename`: skip names in the
exclude-rename set; otherwise push one edit at the declaration's
identifier span and one per recorded usage identifier span, all with
the new name. -/
def renameEdits (preO sufO : Option String) (ex : List Name) (us : Name → List Usage) :
    List (Name × Decl) → List (Nat × Locate × String)
  | [] => []
  | (n, d) :: rest =>
    (if ex.contains n then []
     else (d.file, d.ident, newName preO sufO n) ::
       (us n).map (fun u => (u.file, u.ident, newName preO sufO n)))
    ++ renameEdits preO sufO ex us rest

/-- `Pickle::rename`: append the rename edits to the replacement table. -/
def rename (preO sufO : Option String) (ex : List Name) (p : PickleState) : PickleState :=
  { p with replaceTable := p.replaceTable ++ renameEdits preO sufO ex p.usages p.decls }

/-- The identifier-token spans the renamer may target: for each
declaration, its identifier span followed by the spans of its
recorded usages (each tagged with its file id). -/
def spanList (us : Name → List Usage) (decls : List (Name × Decl)) : List (Nat × Locate) :=
  decls.flatMap (fun nd => (nd.2.file, nd.2.ident) :: (us nd.1).map (fun u => (u.file, u.ident)))

/-- The deletion edits pushed by `Pickle::remove_macros`: one
empty-replacement edit per `TextMacroDefinition` span, in file order. -/
def defineEditsOf (files : List FileModel) : List (Nat × Locate × String) :=
  files.enum.flatMap (fun p => p.2.macros.map (fun loc => (p.1, loc, "")))

/-- `Pickle::remove_macros`. -/
def removeMacros (p : PickleState) : PickleState :=
  { p with replaceTable := p.replaceTable ++ defineEditsOf p.files }

/-- The deletion edits pushed by `Pickle::remove_timeunits`. -/
def timeunitEditsOf (files : List FileModel) : List (Nat × Locate × String) :=
  files.enum.flatMap (fun p => p.2.timeunits.map (fun loc => (p.1, loc, "")))

/-- `Pickle::remove_timeunits`. -/
def removeTimeunits (p : PickleState) : PickleState :=
  { p with replaceTable := p.replaceTable ++ timeunitEditsOf p.files }

/- ------------------------------------------------------------------ -/
/- `.*` expansion: `Pickle::infer_dot_star`                            -/
/- ------------------------------------------------------------------ -/

/-- The text `.p(p)` pushed for one remaining port `p`. -/
def fmtPort (p : Str) : Str :=
  [Char.ofNat 46] ++ p ++ [Char.ofNat 40] ++ p ++ [Char.ofNat 41]

/-- The separator `", "` appended after each port connection. -/
def sepChars : Str := [Char.ofNat 44, Char.ofNat 32]

/-- The port-string accumulation loop of `infer_dot_star`: for each
declared port not already connected, append `.p(p), `. -/
def portsConcat (connected : List Str) : List Str → Str
  | [] => []
  | p :: rest =>
    (if connected.contains p then [] else fmtPort p ++ sepChars) ++ portsConcat connected rest

/-- Rust's `trim_end_matches`: repeatedly remove the pattern from the
end while it is a suffix. -/
def dropSuffixRepeat (pat : Str) (s : Str) : Str :=
  if h : pat ≠ [] ∧ pat.isSuffixOf s then
    dropSuffixRepeat pat (s.take (s.length - pat.length))
  else s
termination_by s.length
decreasing_by
  have hle : pat.length ≤ s.length :=
    List.IsSuffix.length_le (List.isSuffixOf_iff_suffix.mp h.2)
  have hpos : 0 < pat.length := List.length_pos.mpr h.1
  simp only [List.length_take]
  omega

/-- The replacement text for one `.*` token: accumulate `.p(p), ` for
every remaining port, then trim the trailing `", "`. -/
def portsReplacement (connected : List Str) (allPorts : List Str) : Str :=
  dropSuffixRepeat sepChars (portsConcat connected allPorts)

/-- The edits pushed by `Pickle::infer_dot_star`: for every `.*`
occurrence, a replacement at the `.*` token span with the remaining
ports of the instantiated module. -/
def dotStarEditsOf (ports : Name → List Str) (files : List FileModel) :
    List (Nat × Locate × String) :=
  files.enum.flatMap (fun p =>
    p.2.dotStars.map (fun d => (p.1, d.loc, String.mk (portsReplacement d.connected (ports d.target)))))

/-- `Pickle::infer_dot_star`. -/
def inferDotStar (p : PickleState) : PickleState :=
  { p with replaceTable := p.replaceTable ++ dotStarEditsOf p.ports p.files }

/-- The specified form of the expansion text: the remaining ports,
formatted `.p(p)` and joined by `", "`. -/
def joinSepBy (sep : Str) : List Str → Str
  | [] => []
  | [x] => x
  | x :: y :: rest => x ++ sep ++ joinSepBy sep (y :: rest)

/- ------------------------------------------------------------------ -/
/- `Pickle::get_replaced_string`                                       -/
/- ------------------------------------------------------------------ -/

/-- `Pickle::get_replaced_string`: select and sort the replacements
for the span, abort on a consecutive overlap (the `unimplemented!()`
panic), otherwise apply them to the span text and terminate it with a
newline when needed. -/
def getReplacedStringM (p : PickleState) (fileId : Nat) (loc : Locate) :
    Except String Str :=
  let reps := sortReps (selectReps p.replaceTable fileId loc)
  if checkOverlaps reps then
    let needed := (((p.files.get? fileId).map FileModel.src).getD []).drop loc.offset |>.take loc.len
    let out := applyReps needed 0 reps
    Except.ok (if needed.getLast? = some newlineChar then out else out ++ [newlineChar])
  else
    Except.error "Replacement offset error, the selected replacements may not be supported yet"

/- ------------------------------------------------------------------ -/
/- Classic emission: the replacement loop of `do_pickle` (src/lib.rs)  -/
/- ------------------------------------------------------------------ -/

/-- The classic per-file replacement loop of `do_pickle`
(`src/lib.rs`) and `main` (`src/main.rs`): walk the sorted table with
a write position `pos`; an edit whose offset is behind `pos` is
skipped (`if pos > *offset { continue; }`); otherwise copy
`[pos, offset)`, write the replacement, and continue at
`offset + len`.  Out-of-range slicing (a Rust panic) is an error. -/
def classicApplyE (src : Str) : Nat → List (Nat × Nat × String) → Except String Str
  | pos, [] =>
    if pos ≤ src.length then Except.ok (src.drop pos) else Except.error "slice out of range"
  | pos, (o, l, r) :: rest =>
    if pos > o then classicApplyE src pos rest
    else if o ≤ src.length then
      (classicApplyE src (o + l) rest).map (fun out => (src.take o).drop pos ++ r.data ++ out)
    else Except.error "slice out of range"

/-- The write position after the classic loop has processed a list of
edits, starting from `pos`. -/
def classicPos : Nat → List (Nat × Nat × String) → Nat
  | pos, [] => pos
  | pos, (o, l, _) :: rest => if pos > o then classicPos pos rest else classicPos (o + l) rest

/-- One file of classic emission in `do_pickle`: sort the table, run
the replacement loop from position 0 (the overlap scan of
`do_pickle` only prints a message and has no effect on the output),
and guarantee a trailing newline. -/
def classicEmitFileE (src : Str) (tbl : List (Nat × Nat × String)) : Except String Str :=
  (classicApplyE src 0 (sortReps tbl)).map
    (fun out => if src.getLast? = some newlineChar then out else out ++ [newlineChar])

/- ------------------------------------------------------------------ -/
/- Declaration registration: `Pickle::register_declarations`           -/
/- ------------------------------------------------------------------ -/

/-- One top-level declaration as encountered by the registration walk. -/
structure RawDecl where
  name : Name
  kind : SVConstructType
  file : Nat
  loc : Locate
deriving DecidableEq, Repr

/-- The kind word used in the duplicate-declaration error message. -/
def kindWord : SVConstructType → String
  | SVConstructType.Module => "Module"
  | SVConstructType.Interface => "Interface"
  | SVConstructType.Package => "Package"
  | SVConstructType.Class => "Class"

/-- The duplicate-declaration error of `register_declarations`
(the source spells "mutliple"). -/
def dupMsg (k : SVConstructType) (n : Name) : String :=
  kindWord k ++ " " ++ n ++ " declared mutliple times!"

/-- `Pickle::register_declarations`: walk the declarations in order,
fail when a name is already in the table, otherwise append it. -/
def registerDeclarations (tbl : List (Name × SVConstructType × Nat × Locate)) :
    List RawDecl → Except String (List (Name × SVConstructType × Nat × Locate))
  | [] => Except.ok tbl
  | d :: rest =>
    if (tbl.map Prod.fst).contains d.name then Except.error (dupMsg d.kind d.name)
    else registerDeclarations (tbl ++ [(d.name, d.kind, d.file, d.loc)]) rest

/- ------------------------------------------------------------------ -/
/- Dependency graph: `Pickle::get_pickle` and `Pickle::prune_graph`    -/
/- ------------------------------------------------------------------ -/

/-- Outdegree-0 test in the current graph: `n` has no outgoing edge to
a still-present node (`neighbors_directed(node, Outgoing).count() == 0`;
removing a node in petgraph removes its incident edges, so only edges
between present nodes count). -/
def isSink (edges : List (Name × Name)) (nodes : List Name) (n : Name) : Bool :=
  edges.all (fun e => !(e.1 == n && nodes.contains e.2))

/-- The emission loop of `get_pickle`: while nodes remain, fail when
the iteration budget (initially the node count) is exhausted,
otherwise look for a node with outdegree 0; when found remove it (and
record it as emitted), when not found loop again on the unchanged
graph.  Returns the removal order, or `none` for the
cyclic-dependency error. -/
def pickleLoop (edges : List (Name × Name)) : Nat → List Name → Option (List Name)
  | 0, nodes => if nodes.isEmpty then some [] else none
  | limit + 1, nodes =>
    if nodes.isEmpty then some []
    else
      match nodes.find? (fun n => isSink edges nodes n) with
      | some n => (pickleLoop edges limit (nodes.erase n)).map (fun l => n :: l)
      | none => pickleLoop edges limit nodes

/-- The node set `get_pickle` iterates on: the graph restricted to
nodes that have a declaration (`keeper_nodes`). -/
def keptNodes (declared : List Name) (nodes : List Name) : List Name :=
  nodes.filter (fun n => declared.contains n)

/-- `Pickle::get_pickle`: restrict the graph to declared nodes, run
the emission loop with budget equal to the node count, and emit the
declarations of the removed nodes that are not in the exclude set. -/
def getPickle (declared exclude nodes : List Name) (edges : List (Name × Name)) :
    Option (List Name) :=
  (pickleLoop edges (keptNodes declared nodes).length (keptNodes declared nodes)).map
    (fun order => order.filter (fun n => !exclude.contains n))

/-- The single step of the dependency relation inside a node set:
an edge between two present nodes. -/
def GStep (nodes : List Name) (edges : List (Name × Name)) (a b : Name) : Prop :=
  a ∈ nodes ∧ b ∈ nodes ∧ (a, b) ∈ edges

/-- Acyclicity of the graph restricted to `nodes`: no node lies on a
nonempty directed cycle. -/
def Acyclic (nodes : List Name) (edges : List (Name × Name)) : Prop :=
  ∀ n, ¬ Relation.TransGen (GStep nodes edges) n n

/-- Reachability along outgoing edges, as the specification's
"directed path from `T` to `d`". -/
def ReachRel (edges : List (Name × Name)) (a b : Name) : Prop :=
  Relation.ReflTransGen (fun x y => (x, y) ∈ edges) a b

/-- Successors of a node set: targets of edges whose source is in the
set. -/
def succsFrom (edges : List (Name × Name)) (cur : List Name) : List Name :=
  (edges.filter (fun e => cur.contains e.1)).map (fun e => e.2)

/-- One expansion step of the reachability computation. -/
def reachStep (edges : List (Name × Name)) (cur : List Name) : List Name :=
  (cur ++ succsFrom edges cur).dedup

/-- Iterated expansion. -/
def reachIter (edges : List (Name × Name)) : Nat → List Name → List Name
  | 0, cur => cur
  | k + 1, cur => reachIter edges k (reachStep edges cur)

/-- The node set computed by petgraph's `dijkstra(graph, T, None, |_| 1)`
as used by `prune_graph`: every node reachable from `T` (the key set of
`test_weights`), here computed as a breadth-first closure saturating
within `fuel` steps. -/
def dijkstraReach (fuel : Nat) (edges : List (Name × Name)) (t : Name) : List Name :=
  reachIter edges fuel [t]

/-- A node set closed under outgoing edges. -/
def ClosedUnder (edges : List (Name × Name)) (cur : List Name) : Prop :=
  ∀ e ∈ edges, e.1 ∈ cur → e.2 ∈ cur

/-- The graph-relevant state of the `Pickle` of `src/pickle.rs`:
graph nodes and edges, the name-to-node-index map (its key list), and
the declaration and usage tables. -/
structure GraphState where
  nodes : List Name
  edges : List (Name × Name)
  graphNodes : List Name
  declarations : List (Name × SVConstructType × Nat × Locate)
  usages : List (Name × List (Nat × Locate))
deriving DecidableEq, Repr

/-- `Pickle::prune_graph` of `src/pickle.rs`: fail when the top is not
a known node; otherwise keep exactly the nodes reachable from the top
(with their edges) and rebuild the name-to-node-index map from the
remaining graph.  The `declarations` and `usages` tables are not
touched. -/
def pruneGraph (p : GraphState) (t : Name) : Except String GraphState :=
  if p.graphNodes.contains t then
    let reach := dijkstraReach p.nodes.length p.edges t
    Except.ok { p with
      nodes := p.nodes.filter (fun n => reach.contains n),
      edges := p.edges.filter (fun e => reach.contains e.1 && reach.contains e.2),
      graphNodes := p.nodes.filter (fun n => reach.contains n) }
  else Except.error ("Module " ++ t ++ " not found!")

/-- The graph-relevant state of the `Pickle` of `src/lib.rs`. -/
structure PickleLib where
  nodes : List Name
  edges : List (Name × Name)
  graphNodes : List Name
  renameTable : List (Name × Name)
  instTable : List Name
  moduleFileMap : List (Name × String)
deriving DecidableEq, Repr

/-- `Pickle::prune_graph` of `src/lib.rs`: fail when the top is not a
known node; otherwise retain the reachable nodes in the graph and in
the node-index, file-map, instantiation and rename tables. -/
def pruneGraphLib (p : PickleLib) (t : Name) : Except String PickleLib :=
  if p.graphNodes.contains t then
    let reach := dijkstraReach p.nodes.length p.edges t
    Except.ok { p with
      nodes := p.nodes.filter (fun n => reach.contains n),
      edges := p.edges.filter (fun e => reach.contains e.1 && reach.contains e.2),
      graphNodes := p.graphNodes.filter (fun n => reach.contains n),
      renameTable := p.renameTable.filter (fun kv => reach.contains kv.1),
      instTable := p.instTable.filter (fun n => reach.contains n),
      moduleFileMap := p.moduleFileMap.filter (fun kv => reach.contains kv.1) }
  else Except.error ("Module " ++ t ++ " not found!")

/- ------------------------------------------------------------------ -/
/- Library resolver: `Pickle::load_library_module`                     -/
/- ------------------------------------------------------------------ -/

/-- One library file, abstracted to what `load_library_module` reads
from its parse result: the module names it declares and the module
instantiation targets it contains, in order. -/
structure LibFile where
  decls : List Name
  insts : List Name
deriving DecidableEq, Repr

/-- `Pickle::register_declaration` of `src/lib.rs`, restricted to its
effect on the rename-table key set: names in the exclude or
exclude-rename set are not entered into the table. -/
def registerDecl (ex : List Name) (tbl : List Name) (n : Name) : List Name :=
  if ex.contains n || tbl.contains n then tbl else tbl ++ [n]

mutual

/-- `Pickle::load_library_module` (`src/lib.rs`, identically in
`src/main.rs`), with an explicit recursion-depth budget `fuel` so that
the Rust function's unbounded recursion is observable as `none`: look
the name up in the library map (a miss only logs); on a hit register
the file's module declarations, then walk its instantiations,
recursing on every name still missing from the rename table.  Returns
the resulting rename-table key set. -/
def loadLibraryModule (lib : List (Name × LibFile)) (ex : List Name) :
    Nat → List Name → Name → Option (List Name)
  | 0, _, _ => none
  | fuel + 1, tbl, n =>
    match lib.lookup n with
    | none => some tbl
    | some f => loadLibraryList lib ex fuel (f.decls.foldl (registerDecl ex) tbl) f.insts
termination_by fuel _ _ => (fuel, 0)

/-- The instantiation walk inside `load_library_module`: recurse on
each instantiated name that is missing from the rename table at the
time it is reached. -/
def loadLibraryList (lib : List (Name × LibFile)) (ex : List Name) :
    Nat → List Name → List Name → Option (List Name)
  | _, tbl, [] => some tbl
  | fuel, tbl, m :: ms =>
    if tbl.contains m then loadLibraryList lib ex fuel tbl ms
    else
      match loadLibraryModule lib ex fuel tbl m with
      | none => none
      | some tbl' => loadLibraryList lib ex fuel tbl' ms
termination_by fuel _ ms => (fuel, ms.length + 1)

end

/-- The library names not yet present in the rename table. -/
def missingKeys (lib : List (Name × LibFile)) (tbl : List Name) : List Name :=
  (lib.map Prod.fst).filter (fun k => !tbl.contains k)

/- ================================================================== -/
/- Theorems                                                            -/
/- ================================================================== -/

/- C7: edit selection interval of `get_replaced_string` -/

/-- C7 (counterexample): an edit whose absolute offset equals the base
of the span is NOT selected by `get_replaced_string` — the selection
filter is `x.0 > int_offset`, strictly — while an edit one byte later
is selected and rebased.  This refutes the claim that the half-open
interval `[base, base+len)` including `offset = base` is selected. -/
theorem selectReps_base_edit_dropped :
    selectReps [(0, Locate.mk 5 2, "X")] 0 (Locate.mk 5 10) = [] ∧
    selectReps [(0, Locate.mk 6 2, "X")] 0 (Locate.mk 5 10) = [(1, 2, "X")] := by
  constructor <;> rfl

/-- C7 (amended): `get_replaced_string` selects exactly the edits of
the requested file whose absolute offset lies strictly between the
span base and `base + len` (an edit at exactly `base` is excluded),
each rebased to `offset - base`. -/
theorem selectReps_strict_interval (tbl : List (Nat × Locate × String)) (fileId : Nat)
    (loc : Locate) (e : Nat × Nat × String) :
    e ∈ selectReps tbl fileId loc ↔
      ∃ x ∈ tbl, x.1 = fileId ∧ loc.offset < x.2.1.offset ∧
        x.2.1.offset - loc.offset < loc.len ∧
        e = (x.2.1.offset - loc.offset, x.2.1.len, x.2.2) := by
  simp only [selectReps, List.mem_filter, List.mem_map, decide_eq_true_eq, beq_iff_eq]
  constructor
  · rintro ⟨⟨y, ⟨⟨x, ⟨hx, hf⟩, rfl⟩, hgt⟩, rfl⟩, hlt⟩
    exact ⟨x, hx, hf, hgt, hlt, rfl⟩
  · rintro ⟨x, hx, hf, hgt, hlt, rfl⟩
    exact ⟨⟨(x.2.1.offset, x.2.1.len, x.2.2), ⟨⟨x, ⟨hx, hf⟩, rfl⟩, hgt⟩, rfl⟩, hlt⟩

/- C5: duplicate declarations are rejected -/

theorem registerDeclarations_ok_of_nodup (tbl : List (Name × SVConstructType × Nat × Locate))
    (ds : List RawDecl) (h : (tbl.map Prod.fst ++ ds.map RawDecl.name).Nodup) :
    registerDeclarations tbl ds =
      Except.ok (tbl ++ ds.map (fun d => (d.name, d.kind, d.file, d.loc))) := by
  induction ds generalizing tbl with
  | nil => simp [registerDeclarations]
  | cons d rest ih =>
    have hnotin : d.name ∉ tbl.map Prod.fst := by
      rw [List.nodup_append] at h
      exact fun hmem => h.2.2 hmem (by simp)
    have hcont : (tbl.map Prod.fst).contains d.name = false := by
      simpa using hnotin
    have harr : ((tbl ++ [(d.name, d.kind, d.file, d.loc)]).map Prod.fst
        ++ (rest.map RawDecl.name)).Nodup := by
      simpa [List.append_assoc] using h
    calc registerDeclarations tbl (d :: rest)
        = registerDeclarations (tbl ++ [(d.name, d.kind, d.file, d.loc)]) rest := by
          simp only [registerDeclarations, hcont, Bool.false_eq_true, if_false]
      _ = Except.ok ((tbl ++ [(d.name, d.kind, d.file, d.loc)])
            ++ rest.map (fun d => (d.name, d.kind, d.file, d.loc))) := ih _ harr
      _ = Except.ok (tbl ++ (d :: rest).map (fun d => (d.name, d.kind, d.file, d.loc))) := by
          simp

theorem registerDeclarations_err_of_dup (tbl : List (Name × SVConstructType × Nat × Locate))
    (ds : List RawDecl) (hnd : (tbl.map Prod.fst).Nodup)
    (h : ¬ (tbl.map Prod.fst ++ ds.map RawDecl.name).Nodup) :
    ∃ d ∈ ds, registerDeclarations tbl ds = Except.error (dupMsg d.kind d.name) := by
  induction ds generalizing tbl with
  | nil => exact absurd (by simpa using hnd) h
  | cons d rest ih =>
    by_cases hc : (tbl.map Prod.fst).contains d.name = true
    · exact ⟨d, by simp, by simp only [registerDeclarations, hc, if_true]⟩
    · have hcont : (tbl.map Prod.fst).contains d.name = false := by
        simpa using hc
      have hnotin : d.name ∉ tbl.map Prod.fst := by simpa using hcont
      have hnd' : ((tbl ++ [(d.name, d.kind, d.file, d.loc)]).map Prod.fst).Nodup := by
        simp only [List.map_append]
        exact List.Nodup.append hnd (by simp) (by simpa [List.disjoint_singleton] using hnotin)
      have h' : ¬ (((tbl ++ [(d.name, d.kind, d.file, d.loc)]).map Prod.fst)
          ++ rest.map RawDecl.name).Nodup := by
        intro hcontra
        exact h (by simpa [List.append_assoc] using hcontra)
      obtain ⟨d', hd', herr⟩ := ih _ hnd' h'
      refine ⟨d', by simp [hd'], ?_⟩
      rw [show registerDeclarations tbl (d :: rest)
          = registerDeclarations (tbl ++ [(d.name, d.kind, d.file, d.loc)]) rest by
        simp only [registerDeclarations, hcont, Bool.false_eq_true, if_false]]
      exact herr

/-- C5: registering the live declaration set fails with a
duplicate-declaration error naming a re-declared declaration whenever
some top-level name occurs twice, and otherwise succeeds with a table
containing every declaration keyed by its own name — a second
declaration is never silently accepted and never overwrites the
first. -/
theorem registerDeclarations_duplicate_rejected (ds : List RawDecl) :
    ((ds.map RawDecl.name).Nodup →
      registerDeclarations [] ds =
        Except.ok (ds.map (fun d => (d.name, d.kind, d.file, d.loc)))) ∧
    (¬ (ds.map RawDecl.name).Nodup →
      ∃ d ∈ ds, registerDeclarations [] ds = Except.error (dupMsg d.kind d.name)) := by
  constructor
  · intro h
    simpa using registerDeclarations_ok_of_nodup [] ds (by simpa using h)
  · intro h
    exact registerDeclarations_err_of_dup [] ds (by simp) (by simpa using h)

/-- Witness for C5 at concrete inputs: a duplicated module name is
rejected, a duplicate-free set is accepted in full. -/
theorem registerDeclarations_duplicate_rejected_witness :
    (¬ (([⟨"m", SVConstructType.Module, 0, ⟨0, 9⟩⟩,
        ⟨"m", SVConstructType.Package, 1, ⟨4, 7⟩⟩] : List RawDecl).map RawDecl.name).Nodup) ∧
    (∃ d ∈ ([⟨"m", SVConstructType.Module, 0, ⟨0, 9⟩⟩,
        ⟨"m", SVConstructType.Package, 1, ⟨4, 7⟩⟩] : List RawDecl),
      registerDeclarations [] [⟨"m", SVConstructType.Module, 0, ⟨0, 9⟩⟩,
        ⟨"m", SVConstructType.Package, 1, ⟨4, 7⟩⟩] = Except.error (dupMsg d.kind d.name)) := by
  refine ⟨by decide, ?_⟩
  exact (registerDeclarations_duplicate_rejected _).2 (by decide)

/- C9: the planner operations are NOT idempotent -/

/-- C9 (counterexample): with a single macro definition at span
`[3, 8)` of a 20-byte file, a second `remove_macros` invocation
changes the replacement table, and emission of the file span, which
succeeded after one invocation, fails the overlap check after two.
This refutes the claimed idempotence. -/
theorem removeMacros_twice_changes_output :
    (removeMacros (removeMacros
        ⟨[⟨"abcdefghijklmnopqrst".data, [⟨3, 5⟩], [], []⟩], [], fun _ => [], fun _ => [], []⟩)).replaceTable ≠
      (removeMacros
        ⟨[⟨"abcdefghijklmnopqrst".data, [⟨3, 5⟩], [], []⟩], [], fun _ => [], fun _ => [], []⟩).replaceTable ∧
    getReplacedStringM (removeMacros
        ⟨[⟨"abcdefghijklmnopqrst".data, [⟨3, 5⟩], [], []⟩], [], fun _ => [], fun _ => [], []⟩)
        0 ⟨0, 20⟩ = Except.ok "abcijklmnopqrst\n".data ∧
    getReplacedStringM (removeMacros (removeMacros
        ⟨[⟨"abcdefghijklmnopqrst".data, [⟨3, 5⟩], [], []⟩], [], fun _ => [], fun _ => [], []⟩))
        0 ⟨0, 20⟩ =
      Except.error "Replacement offset error, the selected replacements may not be supported yet" := by
  refine ⟨by decide, rfl, rfl⟩

/-- C9 (amended): each planner operation deterministically recomputes
its edit set from the (unchanged) parsed files and appends it to the
replacement table on every invocation; a second invocation therefore
appends a duplicate copy instead of leaving the edit list unchanged,
and the table genuinely differs whenever the operation contributes at
least one edit. -/
theorem planner_ops_append_duplicate_edits (p : PickleState) (preO sufO : Option String)
    (ex : List Name) :
    ((removeMacros p).replaceTable = p.replaceTable ++ defineEditsOf p.files) ∧
    ((removeMacros (removeMacros p)).replaceTable
        = p.replaceTable ++ defineEditsOf p.files ++ defineEditsOf p.files) ∧
    ((removeTimeunits p).replaceTable = p.replaceTable ++ timeunitEditsOf p.files) ∧
    ((removeTimeunits (removeTimeunits p)).replaceTable
        = p.replaceTable ++ timeunitEditsOf p.files ++ timeunitEditsOf p.files) ∧
    ((inferDotStar p).replaceTable = p.replaceTable ++ dotStarEditsOf p.ports p.files) ∧
    ((inferDotStar (inferDotStar p)).replaceTable
        = p.replaceTable ++ dotStarEditsOf p.ports p.files ++ dotStarEditsOf p.ports p.files) ∧
    ((rename preO sufO ex p).replaceTable
        = p.replaceTable ++ renameEdits preO sufO ex p.usages p.decls) ∧
    ((rename preO sufO ex (rename preO sufO ex p)).replaceTable
        = p.replaceTable ++ renameEdits preO sufO ex p.usages p.decls
            ++ renameEdits preO sufO ex p.usages p.decls) ∧
    (defineEditsOf p.files ≠ [] →
      (removeMacros (removeMacros p)).replaceTable ≠ (removeMacros p).replaceTable) ∧
    (timeunitEditsOf p.files ≠ [] →
      (removeTimeunits (removeTimeunits p)).replaceTable ≠ (removeTimeunits p).replaceTable) ∧
    (dotStarEditsOf p.ports p.files ≠ [] →
      (inferDotStar (inferDotStar p)).replaceTable ≠ (inferDotStar p).replaceTable) ∧
    (renameEdits preO sufO ex p.usages p.decls ≠ [] →
      (rename preO sufO ex (rename preO sufO ex p)).replaceTable
        ≠ (rename preO sufO ex p).replaceTable) := by
  refine ⟨rfl, rfl, rfl, rfl, rfl, rfl, rfl, rfl, ?_, ?_, ?_, ?_⟩ <;>
  · intro hne heq
    have := congrArg List.length heq
    simp only [removeMacros, removeTimeunits, inferDotStar, rename, List.length_append] at this
    exact hne (List.length_eq_zero.mp (by omega))

/-- Witness for C9: the duplicate-append equalities applied at a
concrete state with one macro edit, discharging the nonemptiness
hypothesis. -/
theorem planner_ops_append_duplicate_edits_witness :
    (removeMacros (removeMacros
        ⟨[⟨"abc".data, [⟨1, 1⟩], [], []⟩], [], fun _ => [], fun _ => [], []⟩)).replaceTable ≠
      (removeMacros
        ⟨[⟨"abc".data, [⟨1, 1⟩], [], []⟩], [], fun _ => [], fun _ => [], []⟩).replaceTable :=
  (planner_ops_append_duplicate_edits
    ⟨[⟨"abc".data, [⟨1, 1⟩], [], []⟩], [], fun _ => [], fun _ => [], []⟩
    none none []).2.2.2.2.2.2.2.2.1 (by decide)

/- C10: classic emission skips edits behind the write position -/

/-- C10: in the classic per-file emission loop, an edit whose start
offset lies strictly before the write position reached after the
preceding edits is skipped entirely: removing it from the table gives
the identical emission result (in particular its replacement text is
never written and it causes no slicing failure). -/
theorem classicApply_skips_covered_edit (src : Str) (pos : Nat)
    (t1 t2 : List (Nat × Nat × String)) (e : Nat × Nat × String)
    (h : e.1 < classicPos pos t1) :
    classicApplyE src pos (t1 ++ e :: t2) = classicApplyE src pos (t1 ++ t2) := by
  induction t1 generalizing pos with
  | nil =>
    have hp : pos > e.1 := by simpa [classicPos] using h
    obtain ⟨o, l, r⟩ := e
    simp only [List.nil_append, classicApplyE, if_pos hp]
  | cons y t1 ih =>
    obtain ⟨o, l, r⟩ := y
    by_cases hp : pos > o
    · rw [List.cons_append, List.cons_append]
      rw [show classicApplyE src pos ((o, l, r) :: (t1 ++ e :: t2))
            = classicApplyE src pos (t1 ++ e :: t2) by
          simp only [classicApplyE, if_pos hp]]
      rw [show classicApplyE src pos ((o, l, r) :: (t1 ++ t2))
            = classicApplyE src pos (t1 ++ t2) by
          simp only [classicApplyE, if_pos hp]]
      exact ih pos (by simpa [classicPos, if_pos hp] using h)
    · rw [List.cons_append, List.cons_append]
      by_cases hl : o ≤ src.length
      · rw [show classicApplyE src pos ((o, l, r) :: (t1 ++ e :: t2))
              = (classicApplyE src (o + l) (t1 ++ e :: t2)).map
                  (fun out => (src.take o).drop pos ++ r.data ++ out) by
            simp only [classicApplyE, if_neg hp, if_pos hl]]
        rw [show classicApplyE src pos ((o, l, r) :: (t1 ++ t2))
              = (classicApplyE src (o + l) (t1 ++ t2)).map
                  (fun out => (src.take o).drop pos ++ r.data ++ out) by
            simp only [classicApplyE, if_neg hp, if_pos hl]]
        rw [ih (o + l) (by simpa [classicPos, if_neg hp] using h)]
      · rw [show classicApplyE src pos ((o, l, r) :: (t1 ++ e :: t2))
              = Except.error "slice out of range" by
            simp only [classicApplyE, if_neg hp, if_neg hl]]
        rw [show classicApplyE src pos ((o, l, r) :: (t1 ++ t2))
              = Except.error "slice out of range" by
            simp only [classicApplyE, if_neg hp, if_neg hl]]

/-- Witness for C10 at a concrete file: the edit `(4, 2, "Z")` starts
before the position 5 reached by the edit `(2, 3, "XY")`, is skipped,
and the output equals the run without it. -/
theorem classicApply_skips_covered_edit_witness :
    ((4, 2, "Z") : Nat × Nat × String).1 < classicPos 0 [(2, 3, "XY")] ∧
    classicApplyE "abcdefghij".data 0 [(2, 3, "XY"), (4, 2, "Z")] =
      classicApplyE "abcdefghij".data 0 [(2, 3, "XY")] := by
  refine ⟨by decide, ?_⟩
  exact classicApply_skips_covered_edit "abcdefghij".data 0 [(2, 3, "XY")] [] (4, 2, "Z")
    (by decide)

/- C6: overlap detection at emit time -/

theorem checkOverlaps_iff_chain (l : List (Nat × Nat × String)) :
    checkOverlaps l = true ↔ List.Chain' (fun a b => a.1 + a.2.1 ≤ b.1) l := by
  induction l with
  | nil => simp [checkOverlaps]
  | cons a l ih =>
    cases l with
    | nil => simp [checkOverlaps]
    | cons b rest =>
      rw [List.chain'_cons]
      rw [show checkOverlaps (a :: b :: rest)
          = (decide (a.1 + a.2.1 ≤ b.1) && checkOverlaps (b :: rest)) from rfl]
      rw [Bool.and_eq_true, decide_eq_true_eq, ih]

/-- C6 (counterexample): on the overlapping table
`[(2,3,"XY"), (4,2,"Z")]` (consecutive sorted edits with
`2 + 3 > 4`), the classic per-file emitter of `do_pickle` does not
abort: it merely logs and produces output, skipping the covered edit.
This refutes the claim that overlap always aborts emission. -/
theorem classicEmit_continues_on_overlap :
    ¬ List.Chain' (fun a b => a.1 + a.2.1 ≤ b.1) (sortReps [(2, 3, "XY"), (4, 2, "Z")]) ∧
    classicEmitFileE "abcdefghij".data [(2, 3, "XY"), (4, 2, "Z")] =
      Except.ok "abXYfghij\n".data := by
  refine ⟨fun hch => absurd ((checkOverlaps_iff_chain _).mpr hch) ?_, rfl⟩
  decide

/-- C6 (amended): the topological emitter's `get_replaced_string`
does abort: after per-span selection and sorting, it returns the
fatal overlap error iff some consecutive pair `(o1,l1), (o2,l2)`
violates `o1 + l1 ≤ o2`, and otherwise produces output; the classic
per-file emitter of `do_pickle` only logs such an overlap and
continues. -/
theorem getReplacedString_overlap_fatal (p : PickleState) (fileId : Nat) (loc : Locate) :
    (¬ List.Chain' (fun a b => a.1 + a.2.1 ≤ b.1)
        (sortReps (selectReps p.replaceTable fileId loc)) →
      getReplacedStringM p fileId loc =
        Except.error
          "Replacement offset error, the selected replacements may not be supported yet") ∧
    (List.Chain' (fun a b => a.1 + a.2.1 ≤ b.1)
        (sortReps (selectReps p.replaceTable fileId loc)) →
      ∃ out, getReplacedStringM p fileId loc = Except.ok out) := by
  constructor
  · intro hch
    have hc : checkOverlaps (sortReps (selectReps p.replaceTable fileId loc)) = false := by
      cases hcase : checkOverlaps (sortReps (selectReps p.replaceTable fileId loc)) with
      | false => rfl
      | true => exact absurd ((checkOverlaps_iff_chain _).mp hcase) hch
    simp only [getReplacedStringM, hc, Bool.false_eq_true, if_false]
  · intro hch
    have hc : checkOverlaps (sortReps (selectReps p.replaceTable fileId loc)) = true :=
      (checkOverlaps_iff_chain _).mpr hch
    simp only [getReplacedStringM, hc, if_true]
    exact ⟨_, rfl⟩

/-- Witness for C6: at a state whose table holds two identical
nonzero-length edits inside the span, the sorted selection has an
overlapping consecutive pair and `get_replaced_string` returns the
fatal error. -/
theorem getReplacedString_overlap_fatal_witness :
    ¬ List.Chain' (fun a b => a.1 + a.2.1 ≤ b.1)
        (sortReps (selectReps [(0, Locate.mk 3 5, ""), (0, Locate.mk 3 5, "")] 0 (Locate.mk 0 20))) ∧
    getReplacedStringM
        ⟨[⟨"abcdefghijklmnopqrst".data, [], [], []⟩], [], fun _ => [], fun _ => [],
          [(0, Locate.mk 3 5, ""), (0, Locate.mk 3 5, "")]⟩ 0 (Locate.mk 0 20) =
      Except.error
        "Replacement offset error, the selected replacements may not be supported yet" := by
  have hnc : ¬ List.Chain' (fun a b => a.1 + a.2.1 ≤ b.1)
      (sortReps (selectReps [(0, Locate.mk 3 5, ""), (0, Locate.mk 3 5, "")] 0 (Locate.mk 0 20))) :=
    fun hch => absurd ((checkOverlaps_iff_chain _).mpr hch) (by decide)
  refine ⟨hnc, ?_⟩
  exact (getReplacedString_overlap_fatal
    ⟨[⟨"abcdefghijklmnopqrst".data, [], [], []⟩], [], fun _ => [], fun _ => [],
      [(0, Locate.mk 3 5, ""), (0, Locate.mk 3 5, "")]⟩ 0 (Locate.mk 0 20)).1 hnc

/- C3: rename edits -/

theorem renameEdits_eq_flatMap (preO sufO : Option String) (ex : List Name)
    (us : Name → List Usage) (decls : List (Name × Decl)) :
    renameEdits preO sufO ex us decls = decls.flatMap (fun nd =>
      if ex.contains nd.1 then []
      else (nd.2.file, nd.2.ident, newName preO sufO nd.1) ::
        (us nd.1).map (fun u => (u.file, u.ident, newName preO sufO nd.1))) := by
  induction decls with
  | nil => rfl
  | cons nd rest ih =>
    obtain ⟨n, d⟩ := nd
    simp only [renameEdits, List.flatMap_cons, ih]

theorem renameEdits_cons_eq (preO sufO : Option String) (ex : List Name)
    (us : Name → List Usage) (n : Name) (d : Decl) (rest : List (Name × Decl)) :
    renameEdits preO sufO ex us ((n, d) :: rest) =
      (if ex.contains n then []
       else (d.file, d.ident, newName preO sufO n) ::
         (us n).map (fun u => (u.file, u.ident, newName preO sufO n)))
      ++ renameEdits preO sufO ex us rest := rfl

theorem renameEdits_map_span_sublist (preO sufO : Option String) (ex : List Name)
    (us : Name → List Usage) (decls : List (Name × Decl)) :
    List.Sublist ((renameEdits preO sufO ex us decls).map (fun e => (e.1, e.2.1)))
      (spanList us decls) := by
  induction decls with
  | nil => simp [renameEdits, spanList]
  | cons nd rest ih =>
    obtain ⟨n, d⟩ := nd
    rw [show spanList us ((n, d) :: rest)
        = ((d.file, d.ident) :: (us n).map (fun u => (u.file, u.ident))) ++ spanList us rest by
      simp [spanList]]
    rw [renameEdits_cons_eq]
    by_cases hex : ex.contains n = true
    · rw [if_pos hex, List.nil_append]
      exact ih.trans (List.sublist_append_right _ _)
    · rw [if_neg hex, List.map_append]
      refine List.Sublist.append ?_ ih
      rw [List.map_cons, List.map_map]
      exact List.Sublist.refl _

theorem renameEdits_filter_excluded (preO sufO : Option String) (ex : List Name)
    (us : Name → List Usage) (decls : List (Name × Decl)) :
    renameEdits preO sufO ex us decls
      = renameEdits preO sufO ex us (decls.filter (fun nd => !ex.contains nd.1)) := by
  induction decls with
  | nil => rfl
  | cons nd rest ih =>
    obtain ⟨n, d⟩ := nd
    by_cases hex : ex.contains n = true
    · rw [renameEdits_cons_eq, if_pos hex, List.nil_append, ih,
        show List.filter (fun nd => !ex.contains nd.1) ((n, d) :: rest)
          = List.filter (fun nd => !ex.contains nd.1) rest by
        simp only [List.filter_cons, hex, Bool.not_true, Bool.false_eq_true, if_false]]
    · have hex' : ex.contains n = false := by
        cases hcase : ex.contains n with
        | false => rfl
        | true => exact absurd hcase hex
      have hfil : List.filter (fun nd => !ex.contains nd.1) ((n, d) :: rest)
          = (n, d) :: List.filter (fun nd => !ex.contains nd.1) rest := by
        simp only [List.filter_cons, hex', Bool.not_false, if_true]
      rw [renameEdits_cons_eq, if_neg hex, hfil, renameEdits_cons_eq, if_neg hex, ih]

theorem count_one_of_nodup_mem {α : Type} [BEq α] [LawfulBEq α] {l : List α} {a : α}
    (hnd : l.Nodup) (h : a ∈ l) : l.count a = 1 := by
  induction l with
  | nil => cases h
  | cons b t ih =>
    rcases List.mem_cons.mp h with rfl | hmem
    · rw [List.count_cons_self,
        List.count_eq_zero_of_not_mem (List.nodup_cons.mp hnd).1]
    · have hne : a ≠ b := by
        rintro rfl
        exact (List.nodup_cons.mp hnd).1 hmem
      rw [List.count_cons_of_ne hne]
      exact ih (List.nodup_cons.mp hnd).2 hmem

/-- C3: `rename` computes `new_name = prefix ++ name ++ suffix`
(absent parts contributing the empty string) and, for every
declaration whose name is not in the exclude-rename set, pushes
exactly one edit at the declaration's identifier-token span plus one
edit per recorded usage identifier span, all carrying `new_name`;
declarations in the exclude-rename set contribute no edits at all
(dropping them from the declaration table leaves the edit list
unchanged). -/
theorem rename_edits_spec (preO sufO : Option String) (ex : List Name)
    (us : Name → List Usage) (decls : List (Name × Decl))
    (hspans : (spanList us decls).Nodup) :
    (renameEdits preO sufO ex us decls = decls.flatMap (fun nd =>
      if ex.contains nd.1 then []
      else (nd.2.file, nd.2.ident, newName preO sufO nd.1) ::
        (us nd.1).map (fun u => (u.file, u.ident, newName preO sufO nd.1)))) ∧
    (∀ n, newName preO sufO n = preO.getD "" ++ n ++ sufO.getD "") ∧
    (renameEdits preO sufO ex us decls
      = renameEdits preO sufO ex us (decls.filter (fun nd => !ex.contains nd.1))) ∧
    (∀ nd ∈ decls, ex.contains nd.1 = false →
      (renameEdits preO sufO ex us decls).count
          (nd.2.file, nd.2.ident, newName preO sufO nd.1) = 1 ∧
      ∀ u ∈ us nd.1,
        (renameEdits preO sufO ex us decls).count
          (u.file, u.ident, newName preO sufO nd.1) = 1) := by
  have hnd : (renameEdits preO sufO ex us decls).Nodup :=
    List.Nodup.of_map _
      (List.Sublist.nodup (renameEdits_map_span_sublist preO sufO ex us decls) hspans)
  refine ⟨renameEdits_eq_flatMap preO sufO ex us decls, ?_, ?_, ?_⟩
  · intro n
    cases preO <;> cases sufO <;> simp [newName, Option.getD]
  · exact renameEdits_filter_excluded preO sufO ex us decls
  · intro nd hmem hex
    have hdecl : (nd.2.file, nd.2.ident, newName preO sufO nd.1)
        ∈ renameEdits preO sufO ex us decls := by
      rw [renameEdits_eq_flatMap]
      refine List.mem_flatMap.mpr ⟨nd, hmem, ?_⟩
      rw [if_neg (by rw [hex]; exact Bool.false_ne_true)]
      exact List.mem_cons_self _ _
    refine ⟨count_one_of_nodup_mem hnd hdecl, ?_⟩
    intro u hu
    have huse : (u.file, u.ident, newName preO sufO nd.1)
        ∈ renameEdits preO sufO ex us decls := by
      rw [renameEdits_eq_flatMap]
      refine List.mem_flatMap.mpr ⟨nd, hmem, ?_⟩
      rw [if_neg (by rw [hex]; exact Bool.false_ne_true)]
      exact List.mem_cons.mpr (Or.inr (List.mem_map.mpr ⟨u, hu, rfl⟩))
    exact count_one_of_nodup_mem hnd huse

/-- Witness for C3 at a concrete declaration table: the module `m`
with one usage gets exactly one declaration edit and one usage edit
with the prefixed and suffixed name. -/
theorem rename_edits_spec_witness :
    ((spanList (fun _ => [⟨0, ⟨40, 1⟩⟩]) [("m", ⟨0, ⟨0, 20⟩, ⟨7, 1⟩⟩)]).Nodup) ∧
    (renameEdits (some "x_") (some "_y") [] (fun _ => [⟨0, ⟨40, 1⟩⟩])
        [("m", ⟨0, ⟨0, 20⟩, ⟨7, 1⟩⟩)]).count (0, ⟨7, 1⟩, newName (some "x_") (some "_y") "m")
      = 1 := by
  refine ⟨by decide, ?_⟩
  exact ((rename_edits_spec (some "x_") (some "_y") [] (fun _ => [⟨0, ⟨40, 1⟩⟩])
    [("m", ⟨0, ⟨0, 20⟩, ⟨7, 1⟩⟩)] (by decide)).2.2.2 ("m", ⟨0, ⟨0, 20⟩, ⟨7, 1⟩⟩)
      (by simp) (by decide)).1

/- C4: `.*` expansion -/

theorem portsConcat_eq_join (connected : List Str) (l : List Str) :
    portsConcat connected l
      = ((l.filter (fun q => !connected.contains q)).map
          (fun q => fmtPort q ++ sepChars)).flatten := by
  induction l with
  | nil => rfl
  | cons p rest ih =>
    rw [show portsConcat connected (p :: rest)
        = (if connected.contains p then []
           else fmtPort p ++ sepChars) ++ portsConcat connected rest from rfl]
    by_cases hc : connected.contains p = true
    · have hfil : List.filter (fun q => !connected.contains q) (p :: rest)
          = List.filter (fun q => !connected.contains q) rest := by
        simp only [List.filter_cons, hc, Bool.not_true, Bool.false_eq_true, if_false]
      rw [if_pos hc, List.nil_append, ih, hfil]
    · have hc' : connected.contains p = false := by
        cases hcase : connected.contains p with
        | false => rfl
        | true => exact absurd hcase hc
      have hfil : List.filter (fun q => !connected.contains q) (p :: rest)
          = p :: List.filter (fun q => !connected.contains q) rest := by
        simp only [List.filter_cons, hc', Bool.not_false, if_true]
      rw [if_neg hc, ih, hfil, List.map_cons, List.flatten_cons, List.append_assoc]

theorem flatten_map_append_sep (xs : List Str) (hne : xs ≠ []) :
    (xs.map (fun q => q ++ sepChars)).flatten = joinSepBy sepChars xs ++ sepChars := by
  induction xs with
  | nil => exact absurd rfl hne
  | cons x rest ih =>
    cases rest with
    | nil => simp [joinSepBy]
    | cons y t =>
      rw [show joinSepBy sepChars (x :: y :: t) = x ++ sepChars ++ joinSepBy sepChars (y :: t)
        from rfl]
      rw [List.map_cons, List.flatten_cons, ih (by simp)]
      simp [List.append_assoc]

theorem dropSuffixRepeat_append_pat (pat : Str) (hne : pat ≠ []) (y : Str) :
    dropSuffixRepeat pat (y ++ pat) = dropSuffixRepeat pat y := by
  rw [dropSuffixRepeat]
  rw [dif_pos ⟨hne, List.isSuffixOf_iff_suffix.mpr ⟨y, rfl⟩⟩]
  congr 1
  rw [List.length_append, Nat.add_sub_cancel]
  exact List.take_left y pat

theorem dropSuffixRepeat_of_getLast_ne (pat s : Str) (a b : Char)
    (hpa : pat.getLast? = some a) (hsb : s.getLast? = some b) (hab : a ≠ b) :
    dropSuffixRepeat pat s = s := by
  rw [dropSuffixRepeat]
  rw [dif_neg]
  rintro ⟨-, hsuf⟩
  obtain ⟨t, rfl⟩ := List.isSuffixOf_iff_suffix.mp hsuf
  rw [List.getLast?_append, hpa] at hsb
  exact hab (by simpa using hsb)

theorem joinSepBy_fmtPort_getLast (rem : List Str) (hne : rem ≠ []) :
    (joinSepBy sepChars (rem.map fmtPort)).getLast? = some (Char.ofNat 41) := by
  induction rem with
  | nil => exact absurd rfl hne
  | cons x rest ih =>
    cases rest with
    | nil =>
      rw [show joinSepBy sepChars ([x].map fmtPort) = fmtPort x from rfl]
      rw [show fmtPort x
          = ([Char.ofNat 46] ++ x ++ [Char.ofNat 40] ++ x) ++ [Char.ofNat 41] by
        simp [fmtPort, List.append_assoc]]
      exact List.getLast?_concat _
    | cons y t =>
      have hJ := ih (by simp)
      rw [show joinSepBy sepChars ((x :: y :: t).map fmtPort)
          = fmtPort x ++ sepChars ++ joinSepBy sepChars ((y :: t).map fmtPort) from rfl]
      rw [List.getLast?_append, hJ]
      rfl

theorem portsReplacement_eq_joinSepBy (connected : List Str) (allPorts : List Str) :
    portsReplacement connected allPorts
      = joinSepBy sepChars
          ((allPorts.filter (fun q => !connected.contains q)).map fmtPort) := by
  rw [portsReplacement, portsConcat_eq_join]
  by_cases hrem : allPorts.filter (fun q => !connected.contains q) = []
  · rw [hrem]
    rw [show (([] : List Str).map (fun q => fmtPort q ++ sepChars)).flatten = [] from rfl]
    rw [show joinSepBy sepChars (([] : List Str).map fmtPort) = [] from rfl]
    rw [dropSuffixRepeat]
    rw [dif_neg]
    rintro ⟨-, hsuf⟩
    have := List.IsSuffix.length_le (List.isSuffixOf_iff_suffix.mp hsuf)
    simp [sepChars] at this
  · have hmapne : (allPorts.filter (fun q => !connected.contains q)).map fmtPort ≠ [] := by
      simpa using hrem
    rw [show ((allPorts.filter (fun q => !connected.contains q)).map
          (fun q => fmtPort q ++ sepChars)).flatten
        = (((allPorts.filter (fun q => !connected.contains q)).map fmtPort).map
            (fun q => q ++ sepChars)).flatten by
      rw [List.map_map]
      rfl]
    rw [flatten_map_append_sep _ hmapne]
    rw [dropSuffixRepeat_append_pat sepChars (by simp [sepChars]) _]
    exact dropSuffixRepeat_of_getLast_ne _ _ (Char.ofNat 32) (Char.ofNat 41)
      rfl (joinSepBy_fmtPort_getLast _ hrem) (by decide)

/-- C4: `infer_dot_star` pushes, for every `.*` wildcard occurrence,
one replacement edit at the `.*` token's span whose text is the
comma-separated list `.p(p), .q(q), …` of exactly the instantiated
module's declared ports minus the already-connected ones, in port
declaration order; the replacement is empty when no ports remain. -/
theorem inferDotStar_expansion (ports : Name → List Str) (files : List FileModel) :
    (dotStarEditsOf ports files = files.enum.flatMap (fun pr =>
      pr.2.dotStars.map (fun d => (pr.1, d.loc, String.mk (joinSepBy sepChars
        (((ports d.target).filter (fun q => !d.connected.contains q)).map fmtPort)))))) ∧
    (∀ connected allPorts, portsReplacement connected allPorts
      = joinSepBy sepChars ((allPorts.filter (fun q => !connected.contains q)).map fmtPort)) ∧
    (∀ connected allPorts, (allPorts.filter (fun q => !connected.contains q)) = [] →
      portsReplacement connected allPorts = []) ∧
    (∀ p : PickleState,
      (inferDotStar p).replaceTable = p.replaceTable ++ dotStarEditsOf p.ports p.files) := by
  refine ⟨?_, portsReplacement_eq_joinSepBy, ?_, fun _ => rfl⟩
  · rw [dotStarEditsOf]
    congr 1
    funext pr
    congr 1
    funext d
    rw [portsReplacement_eq_joinSepBy]
  · intro connected allPorts hrem
    rw [portsReplacement_eq_joinSepBy, hrem]
    rfl

/-- Witness for C7's amended characterization at a concrete table:
the edit at absolute offset 6 inside span `[5, 15)` is selected
rebased to 1. -/
theorem selectReps_strict_interval_witness :
    (1, 2, "X") ∈ selectReps [(0, Locate.mk 6 2, "X")] 0 (Locate.mk 5 10) ∧
    ∃ x ∈ [((0 : Nat), Locate.mk 6 2, "X")], x.1 = 0 ∧ (Locate.mk 5 10).offset < x.2.1.offset ∧
      x.2.1.offset - (Locate.mk 5 10).offset < (Locate.mk 5 10).len ∧
      ((1 : Nat), (2 : Nat), "X") = (x.2.1.offset - (Locate.mk 5 10).offset, x.2.1.len, x.2.2) := by
  refine ⟨by decide, ?_⟩
  exact (selectReps_strict_interval [(0, Locate.mk 6 2, "X")] 0 (Locate.mk 5 10)
    (1, 2, "X")).mp (by decide)

/-- Witness for C4 at a concrete module: with ports `a, b, c` and `a`
already connected, the replacement expands to `.b(b), .c(c)`; with
all ports connected it is empty. -/
theorem inferDotStar_expansion_witness :
    portsReplacement ["a".data] ["a".data, "b".data, "c".data]
      = joinSepBy sepChars
          ((["a".data, "b".data, "c".data].filter
            (fun q => !(["a".data]).contains q)).map fmtPort) ∧
    portsReplacement ["a".data, "b".data] ["a".data, "b".data] = [] := by
  constructor
  · exact (inferDotStar_expansion (fun _ => []) []).2.1 ["a".data] ["a".data, "b".data, "c".data]
  · exact (inferDotStar_expansion (fun _ => []) []).2.2.1 ["a".data, "b".data]
      ["a".data, "b".data] (by decide)

/- C8: termination of the library resolver -/
theorem registerDecl_subset (ex : List Name) (tbl : List Name) (n : Name) :
    tbl ⊆ registerDecl ex tbl n := by
  intro x hx
  rw [registerDecl]
  split
  · exact hx
  · exact List.mem_append.mpr (Or.inl hx)

theorem foldl_registerDecl_subset (ex : List Name) (ns : List Name) (tbl : List Name) :
    tbl ⊆ ns.foldl (registerDecl ex) tbl := by
  induction ns generalizing tbl with
  | nil => exact fun x hx => hx
  | cons m ms ih =>
    rw [List.foldl_cons]
    exact fun x hx => ih (registerDecl ex tbl m) (registerDecl_subset ex tbl m hx)

theorem foldl_registerDecl_mem (ex : List Name) (ns : List Name) (tbl : List Name) (n : Name)
    (hn : n ∈ ns) (hex : ex.contains n = false) : n ∈ ns.foldl (registerDecl ex) tbl := by
  induction ns generalizing tbl with
  | nil => cases hn
  | cons m ms ih =>
    rw [List.foldl_cons]
    rcases List.mem_cons.mp hn with rfl | hmem
    · refine foldl_registerDecl_subset ex ms _ ?_
      rw [registerDecl, hex, Bool.false_or]
      split
      · next hcon => simpa using hcon
      · exact List.mem_append.mpr (Or.inr (List.mem_singleton.mpr rfl))
    · exact ih (registerDecl ex tbl m) hmem

theorem load_mono (lib : List (Name × LibFile)) (ex : List Name) : ∀ fuel : Nat,
    (∀ tbl n tbl', loadLibraryModule lib ex fuel tbl n = some tbl' → tbl ⊆ tbl') ∧
    (∀ tbl ms tbl', loadLibraryList lib ex fuel tbl ms = some tbl' → tbl ⊆ tbl') := by
  intro fuel
  induction fuel with
  | zero =>
    constructor
    · intro tbl n tbl' h
      rw [loadLibraryModule] at h
      exact absurd h (by simp)
    · intro tbl ms tbl' h
      induction ms generalizing tbl with
      | nil =>
        rw [loadLibraryList] at h
        cases h
        exact fun x hx => hx
      | cons m ms ihm =>
        rw [loadLibraryList] at h
        by_cases hc : tbl.contains m = true
        · rw [if_pos hc] at h
          exact ihm tbl h
        · rw [if_neg hc] at h
          rw [loadLibraryModule] at h
          exact absurd h (by simp)
  | succ fuel ih =>
    have hmod : ∀ tbl n tbl', loadLibraryModule lib ex (fuel + 1) tbl n = some tbl' →
        tbl ⊆ tbl' := by
      intro tbl n tbl' h
      rw [loadLibraryModule] at h
      cases hl : lib.lookup n with
      | none =>
        rw [hl] at h
        cases h
        exact fun x hx => hx
      | some f =>
        rw [hl] at h
        exact (foldl_registerDecl_subset ex f.decls tbl).trans (ih.2 _ _ _ h)
    refine ⟨hmod, ?_⟩
    intro tbl ms tbl' h
    induction ms generalizing tbl with
    | nil =>
      rw [loadLibraryList] at h
      cases h
      exact fun x hx => hx
    | cons m ms ihm =>
      rw [loadLibraryList] at h
      by_cases hc : tbl.contains m = true
      · rw [if_pos hc] at h
        exact ihm tbl h
      · rw [if_neg hc] at h
        cases hm : loadLibraryModule lib ex (fuel + 1) tbl m with
        | none =>
          rw [hm] at h
          cases h
        | some tbl1 =>
          rw [hm] at h
          exact (hmod _ _ _ hm).trans (ihm tbl1 h)

theorem missingKeys_anti (lib : List (Name × LibFile)) (tbl tbl' : List Name)
    (hsub : tbl ⊆ tbl') : missingKeys lib tbl' ⊆ missingKeys lib tbl := by
  intro k hk
  rw [missingKeys, List.mem_filter] at hk ⊢
  refine ⟨hk.1, ?_⟩
  have hnot : k ∉ tbl' := by simpa using hk.2
  have : k ∉ tbl := fun hx => hnot (hsub hx)
  simpa using this

theorem missingKeys_nodup (lib : List (Name × LibFile)) (tbl : List Name)
    (hknd : (lib.map Prod.fst).Nodup) : (missingKeys lib tbl).Nodup :=
  List.Nodup.filter _ hknd

theorem missingKeys_lt (lib : List (Name × LibFile)) (tbl tbl' : List Name)
    (hknd : (lib.map Prod.fst).Nodup) (hsub : tbl ⊆ tbl') (n : Name)
    (hmiss : n ∈ missingKeys lib tbl) (hin : n ∈ tbl') :
    (missingKeys lib tbl').length < (missingKeys lib tbl).length := by
  have hsubF : (missingKeys lib tbl').toFinset ⊆ (missingKeys lib tbl).toFinset := by
    intro x hx
    exact List.mem_toFinset.mpr (missingKeys_anti lib tbl tbl' hsub (List.mem_toFinset.mp hx))
  have hssub : (missingKeys lib tbl').toFinset ⊂ (missingKeys lib tbl).toFinset := by
    refine (Finset.ssubset_iff_of_subset hsubF).mpr ?_
    refine ⟨n, List.mem_toFinset.mpr hmiss, ?_⟩
    intro hcon
    have := List.mem_toFinset.mp hcon
    rw [missingKeys, List.mem_filter] at this
    exact (by simpa using this.2 : n ∉ tbl') hin
  calc (missingKeys lib tbl').length = (missingKeys lib tbl').toFinset.card :=
        (List.toFinset_card_of_nodup (missingKeys_nodup lib tbl' hknd)).symm
    _ < (missingKeys lib tbl).toFinset.card := Finset.card_lt_card hssub
    _ = (missingKeys lib tbl).length :=
        List.toFinset_card_of_nodup (missingKeys_nodup lib tbl hknd)

theorem missingKeys_le (lib : List (Name × LibFile)) (tbl tbl' : List Name)
    (hknd : (lib.map Prod.fst).Nodup) (hsub : tbl ⊆ tbl') :
    (missingKeys lib tbl').length ≤ (missingKeys lib tbl).length := by
  have hsubF : (missingKeys lib tbl').toFinset ⊆ (missingKeys lib tbl).toFinset := by
    intro x hx
    exact List.mem_toFinset.mpr (missingKeys_anti lib tbl tbl' hsub (List.mem_toFinset.mp hx))
  calc (missingKeys lib tbl').length = (missingKeys lib tbl').toFinset.card :=
        (List.toFinset_card_of_nodup (missingKeys_nodup lib tbl' hknd)).symm
    _ ≤ (missingKeys lib tbl).toFinset.card := Finset.card_le_card hsubF
    _ = (missingKeys lib tbl).length :=
        List.toFinset_card_of_nodup (missingKeys_nodup lib tbl hknd)

theorem load_success (lib : List (Name × LibFile)) (ex : List Name)
    (hknd : (lib.map Prod.fst).Nodup)
    (hwf : ∀ kf ∈ lib, kf.1 ∈ kf.2.decls ∧ ex.contains kf.1 = false) : ∀ fuel : Nat,
    (∀ tbl n, tbl.contains n = false → (missingKeys lib tbl).length < fuel →
      (loadLibraryModule lib ex fuel tbl n).isSome) ∧
    (∀ tbl ms, (missingKeys lib tbl).length < fuel →
      (loadLibraryList lib ex fuel tbl ms).isSome) := by
  intro fuel
  induction fuel with
  | zero => exact ⟨fun tbl n _ hm => absurd hm (by omega), fun tbl ms hm => absurd hm (by omega)⟩
  | succ fuel ih =>
    have hmod : ∀ tbl n, tbl.contains n = false → (missingKeys lib tbl).length < fuel + 1 →
        (loadLibraryModule lib ex (fuel + 1) tbl n).isSome := by
      intro tbl n hcon hmiss
      rw [loadLibraryModule]
      cases hl : lib.lookup n with
      | none => exact rfl
      | some f =>
        obtain ⟨l₁, l₂, hsplit, -⟩ := List.lookup_eq_some_iff.mp hl
        have hmemlib : (n, f) ∈ lib := by
          rw [hsplit]
          exact List.mem_append.mpr (Or.inr (List.mem_cons_self _ _))
        obtain ⟨hdec, hex⟩ := hwf (n, f) hmemlib
        have hnmiss : n ∈ missingKeys lib tbl := by
          rw [missingKeys, List.mem_filter]
          exact ⟨List.mem_map.mpr ⟨(n, f), hmemlib, rfl⟩, by simpa using hcon⟩
        have hintbl1 : n ∈ f.decls.foldl (registerDecl ex) tbl :=
          foldl_registerDecl_mem ex f.decls tbl n hdec hex
        have hlt : (missingKeys lib (f.decls.foldl (registerDecl ex) tbl)).length
            < (missingKeys lib tbl).length :=
          missingKeys_lt lib tbl _ hknd (foldl_registerDecl_subset ex f.decls tbl) n
            hnmiss hintbl1
        exact ih.2 _ f.insts (by omega)
    refine ⟨hmod, ?_⟩
    intro tbl ms hmiss
    induction ms generalizing tbl with
    | nil =>
      rw [loadLibraryList]
      exact rfl
    | cons m ms ihm =>
      rw [loadLibraryList]
      by_cases hc : tbl.contains m = true
      · rw [if_pos hc]
        exact ihm tbl hmiss
      · rw [if_neg hc]
        have hc' : tbl.contains m = false := by
          cases hcase : tbl.contains m with
          | false => rfl
          | true => exact absurd hcase hc
        have hm := hmod tbl m hc' hmiss
        obtain ⟨tbl1, hsome⟩ := Option.isSome_iff_exists.mp hm
        rw [hsome]
        have hsub := (load_mono lib ex (fuel + 1)).1 tbl m tbl1 hsome
        exact ihm tbl1 (by
          have := missingKeys_le lib tbl tbl1 hknd hsub
          omega)

theorem loadBad_diverges : ∀ fuel : Nat, ∀ tbl' : List Name,
    loadLibraryModule [("a", ⟨[], ["a"]⟩)] [] fuel [] "a" ≠ some tbl' := by
  intro fuel
  induction fuel with
  | zero =>
    intro tbl'
    rw [loadLibraryModule]
    simp
  | succ fuel ih =>
    intro tbl'
    rw [loadLibraryModule]
    show loadLibraryList [("a", ⟨[], ["a"]⟩)] [] fuel [] ["a"] ≠ some tbl'
    rw [loadLibraryList]
    rw [if_neg (by decide : ¬ (List.contains ([] : List Name) "a" = true))]
    cases hx : loadLibraryModule [("a", ⟨[], ["a"]⟩)] [] fuel [] "a" with
    | none => simp
    | some t => exact absurd hx (ih t)

/-- C8 (counterexample): for the finite library map that binds `a` to
a file declaring no module but instantiating `a` (a mislabelled
library file), `load_library_module` starting at `a` never returns:
no recursion-depth budget suffices.  This refutes termination for
every finite library map and starting name. -/
theorem loadLibraryModule_diverges :
    ¬ ∃ (fuel : Nat) (tbl' : List Name),
      loadLibraryModule [("a", ⟨[], ["a"]⟩)] [] fuel [] "a" = some tbl' := by
  rintro ⟨fuel, tbl', h⟩
  exact loadBad_diverges fuel tbl' h

/-- C8 (amended): `load_library_module` terminates whenever every
entry of the library map binds a name to a file that declares a
module of exactly that name and the name is not in the exclusion
sets: each successful parse then registers the key before the
recursive calls, recursion happens only on names still missing from
the registration table, and the set of still-missing library keys
strictly shrinks, so a recursion depth of one more than the number of
missing keys suffices — in particular mutual instantiation between
well-formed library modules cannot cause divergence. -/
theorem loadLibraryModule_terminates (lib : List (Name × LibFile)) (ex : List Name)
    (hknd : (lib.map Prod.fst).Nodup)
    (hwf : ∀ kf ∈ lib, kf.1 ∈ kf.2.decls ∧ ex.contains kf.1 = false)
    (tbl : List Name) (n : Name) (hcon : tbl.contains n = false) :
    (loadLibraryModule lib ex ((missingKeys lib tbl).length + 1) tbl n).isSome ∧
    ∃ fuel, (loadLibraryModule lib ex fuel tbl n).isSome :=
  have h := (load_success lib ex hknd hwf ((missingKeys lib tbl).length + 1)).1 tbl n hcon
    (by omega)
  ⟨h, ⟨(missingKeys lib tbl).length + 1, h⟩⟩

/-- Witness for C8 at two mutually instantiating, well-formed library
modules: resolution of `a` terminates. -/
theorem loadLibraryModule_terminates_witness :
    ((([("a", ⟨["a"], ["b"]⟩), ("b", ⟨["b"], ["a"]⟩)] : List (Name × LibFile)).map
        Prod.fst).Nodup) ∧
    (loadLibraryModule [("a", ⟨["a"], ["b"]⟩), ("b", ⟨["b"], ["a"]⟩)] []
      ((missingKeys [("a", ⟨["a"], ["b"]⟩), ("b", ⟨["b"], ["a"]⟩)] []).length + 1)
      [] "a").isSome := by
  refine ⟨by decide, ?_⟩
  exact (loadLibraryModule_terminates [("a", ⟨["a"], ["b"]⟩), ("b", ⟨["b"], ["a"]⟩)] []
    (by decide) (by decide) [] "a" (by decide)).1

/- C2: pruning and reachability -/

theorem mem_reachStep (edges : List (Name × Name)) (cur : List Name) (x : Name) :
    x ∈ reachStep edges cur ↔ x ∈ cur ∨ ∃ e ∈ edges, e.1 ∈ cur ∧ e.2 = x := by
  simp only [reachStep, succsFrom, List.mem_dedup, List.mem_append, List.mem_map,
    List.mem_filter, List.elem_eq_mem, decide_eq_true_eq]
  constructor
  · rintro (hx | ⟨e, ⟨he, hc⟩, rfl⟩)
    · exact Or.inl hx
    · exact Or.inr ⟨e, he, by simpa using hc, rfl⟩
  · rintro (hx | ⟨e, he, hc, rfl⟩)
    · exact Or.inl hx
    · exact Or.inr ⟨e, ⟨he, by simpa using hc⟩, rfl⟩

theorem reachIter_mono (edges : List (Name × Name)) : ∀ (k : Nat) (c₁ c₂ : List Name),
    (∀ x, x ∈ c₁ → x ∈ c₂) → ∀ x, x ∈ reachIter edges k c₁ → x ∈ reachIter edges k c₂ := by
  intro k
  induction k with
  | zero => exact fun c₁ c₂ hsub x hx => hsub x hx
  | succ k ih =>
    intro c₁ c₂ hsub x hx
    refine ih (reachStep edges c₁) (reachStep edges c₂) ?_ x hx
    intro y hy
    rcases (mem_reachStep edges c₁ y).mp hy with h | ⟨e, he, h1, rfl⟩
    · exact (mem_reachStep edges c₂ y).mpr (Or.inl (hsub y h))
    · exact (mem_reachStep edges c₂ e.2).mpr (Or.inr ⟨e, he, hsub e.1 h1, rfl⟩)

theorem subset_reachIter (edges : List (Name × Name)) : ∀ (k : Nat) (c : List Name),
    ∀ x ∈ c, x ∈ reachIter edges k c := by
  intro k
  induction k with
  | zero => exact fun c x hx => hx
  | succ k ih =>
    intro c x hx
    exact ih (reachStep edges c) x ((mem_reachStep edges c x).mpr (Or.inl hx))

theorem reachIter_succ_of_mem (edges : List (Name × Name)) : ∀ (k : Nat) (c : List Name)
    (x : Name), x ∈ reachIter edges k c → x ∈ reachIter edges (k + 1) c := by
  intro k
  induction k with
  | zero =>
    intro c x hx
    exact subset_reachIter edges 1 c x hx
  | succ k ih =>
    intro c x hx
    exact ih (reachStep edges c) x hx

theorem reachIter_le (edges : List (Name × Name)) (c : List Name) (x : Name) :
    ∀ {k k' : Nat}, k ≤ k' → x ∈ reachIter edges k c → x ∈ reachIter edges k' c := by
  intro k k' h
  induction h with
  | refl => exact id
  | step _ ih => exact fun hx => reachIter_succ_of_mem edges _ c x (ih hx)

theorem reach_sound (edges : List (Name × Name)) (t : Name) : ∀ (k : Nat) (c : List Name),
    (∀ y ∈ c, ReachRel edges t y) → ∀ x ∈ reachIter edges k c, ReachRel edges t x := by
  intro k
  induction k with
  | zero => exact fun c hc x hx => hc x hx
  | succ k ih =>
    intro c hc x hx
    refine ih (reachStep edges c) ?_ x hx
    intro y hy
    rcases (mem_reachStep edges c y).mp hy with h | ⟨e, he, h1, rfl⟩
    · exact hc y h
    · exact Relation.ReflTransGen.tail (hc e.1 h1) he

theorem reachIter_of_closed (edges : List (Name × Name)) : ∀ (k : Nat) (c : List Name),
    ClosedUnder edges c → ∀ x, x ∈ reachIter edges k c ↔ x ∈ c := by
  intro k
  induction k with
  | zero => exact fun c _ x => Iff.rfl
  | succ k ih =>
    intro c hcl x
    have hstep : ∀ y, y ∈ reachStep edges c ↔ y ∈ c := by
      intro y
      rw [mem_reachStep]
      constructor
      · rintro (h | ⟨e, he, h1, rfl⟩)
        · exact h
        · exact hcl e he h1
      · exact Or.inl
    constructor
    · intro hx
      exact (ih (reachStep edges c) (fun e he h1 => (hstep e.2).mpr (hcl e he ((hstep e.1).mp h1)))
        x).mp hx |> (hstep x).mp
    · intro hx
      exact subset_reachIter edges (k + 1) c x hx

theorem exists_closed_reachIter (edges : List (Name × Name)) (nodes : List Name)
    (hnd : nodes.Nodup) (he2 : ∀ e ∈ edges, e.2 ∈ nodes) : ∀ (fuel : Nat) (c : List Name),
    c.Nodup → (∀ y ∈ c, y ∈ nodes) → nodes.length ≤ c.length + fuel →
    ∃ k ≤ fuel, ClosedUnder edges (reachIter edges k c) := by
  intro fuel
  induction fuel with
  | zero =>
    intro c hcnd hcsub hlen
    refine ⟨0, Nat.le_refl 0, ?_⟩
    have hcF : c.toFinset = nodes.toFinset := by
      refine Finset.eq_of_subset_of_card_le ?_ ?_
      · intro x hx
        exact List.mem_toFinset.mpr (hcsub x (List.mem_toFinset.mp hx))
      · rw [List.toFinset_card_of_nodup hnd, List.toFinset_card_of_nodup hcnd]
        omega
    intro e he h1
    have : e.2 ∈ nodes.toFinset := List.mem_toFinset.mpr (he2 e he)
    rw [← hcF] at this
    exact List.mem_toFinset.mp this
  | succ fuel ih =>
    intro c hcnd hcsub hlen
    by_cases hcl : ClosedUnder edges c
    · exact ⟨0, Nat.zero_le _, hcl⟩
    · rw [ClosedUnder] at hcl
      push_neg at hcl
      obtain ⟨e, he, h1, h2⟩ := hcl
      have hc'nd : (reachStep edges c).Nodup := List.nodup_dedup _
      have hsub : ∀ x, x ∈ c → x ∈ reachStep edges c :=
        fun x hx => (mem_reachStep edges c x).mpr (Or.inl hx)
      have hnew : e.2 ∈ reachStep edges c :=
        (mem_reachStep edges c e.2).mpr (Or.inr ⟨e, he, h1, rfl⟩)
      have hc'sub : ∀ y ∈ reachStep edges c, y ∈ nodes := by
        intro y hy
        rcases (mem_reachStep edges c y).mp hy with h | ⟨e', he', _, rfl⟩
        · exact hcsub y h
        · exact he2 e' he'
      have hlt : c.length < (reachStep edges c).length := by
        have hssub : c.toFinset ⊂ (reachStep edges c).toFinset := by
          refine (Finset.ssubset_iff_of_subset ?_).mpr ?_
          · intro x hx
            exact List.mem_toFinset.mpr (hsub x (List.mem_toFinset.mp hx))
          · exact ⟨e.2, List.mem_toFinset.mpr hnew, fun hcon => h2 (List.mem_toFinset.mp hcon)⟩
        calc c.length = c.toFinset.card := (List.toFinset_card_of_nodup hcnd).symm
          _ < (reachStep edges c).toFinset.card := Finset.card_lt_card hssub
          _ = (reachStep edges c).length := List.toFinset_card_of_nodup hc'nd
      obtain ⟨k, hk, hkcl⟩ := ih (reachStep edges c) hc'nd hc'sub (by omega)
      exact ⟨k + 1, by omega, hkcl⟩

theorem dijkstraReach_mem_iff (edges : List (Name × Name)) (nodes : List Name) (t : Name)
    (hnd : nodes.Nodup) (ht : t ∈ nodes) (he2 : ∀ e ∈ edges, e.2 ∈ nodes) (x : Name) :
    x ∈ dijkstraReach nodes.length edges t ↔ ReachRel edges t x := by
  constructor
  · intro hx
    refine reach_sound edges t nodes.length [t] ?_ x hx
    intro y hy
    rw [List.mem_singleton] at hy
    subst hy
    exact Relation.ReflTransGen.refl
  · intro hreach
    obtain ⟨k, hk, hkcl⟩ :=
      exists_closed_reachIter edges nodes hnd he2 nodes.length [t]
        (List.nodup_singleton t) (by simpa using ht) (by simp)
    have hmem : x ∈ reachIter edges k [t] := by
      induction hreach with
      | refl => exact subset_reachIter edges k [t] t (List.mem_singleton.mpr rfl)
      | tail _ hstep ih => exact hkcl _ hstep ih
    exact reachIter_le edges [t] x hk hmem

theorem pickleLoop_subset (edges : List (Name × Name)) : ∀ (fuel : Nat) (nodes : List Name)
    (l : List Name), pickleLoop edges fuel nodes = some l → ∀ x ∈ l, x ∈ nodes := by
  intro fuel
  induction fuel with
  | zero =>
    intro nodes l h
    rw [pickleLoop] at h
    by_cases hne : nodes.isEmpty = true
    · rw [if_pos hne] at h
      cases h
      intro x hx
      cases hx
    · rw [if_neg hne] at h
      cases h
  | succ fuel ih =>
    intro nodes l h
    rw [pickleLoop] at h
    by_cases hne : nodes.isEmpty = true
    · rw [if_pos hne] at h
      cases h
      intro x hx
      cases hx
    · rw [if_neg hne] at h
      cases hf : nodes.find? (fun n => isSink edges nodes n) with
      | none =>
        simp only [hf] at h
        exact ih nodes l h
      | some n =>
        simp only [hf] at h
        cases hrec : pickleLoop edges fuel (nodes.erase n) with
        | none => rw [hrec] at h; cases h
        | some l' =>
          rw [hrec] at h
          cases h
          intro x hx
          rcases List.mem_cons.mp hx with rfl | hx'
          · exact List.mem_of_find?_eq_some hf
          · exact List.mem_of_mem_erase (ih (nodes.erase n) l' hrec x hx')

/-- C2 (counterexample): pruning `pickle.rs`'s graph state from top
`a` removes the unreachable node `c` from the graph and from the
name-to-node-index map, but the `declarations` table still contains
`c` afterwards (and likewise `usages` is untouched).  This refutes
the claim that unreachable nodes are removed from the declarations
and usages tables. -/
theorem pruneGraph_retains_declarations :
    pruneGraph
        ⟨["a", "c"], [], ["a", "c"],
          [("c", SVConstructType.Module, 0, ⟨0, 5⟩)], [("c", [])]⟩ "a"
      = Except.ok
        ⟨["a"], [], ["a"],
          [("c", SVConstructType.Module, 0, ⟨0, 5⟩)], [("c", [])]⟩ ∧
    ¬ ReachRel [] "a" "c" := by
  constructor
  · rfl
  · intro h
    rcases Relation.ReflTransGen.cases_head h with heq | ⟨c', hstep, -⟩
    · exact absurd heq (by decide)
    · cases hstep

/-- C2 (amended): `prune_graph(T)` fails when `T` is not a known
node; on success the graph and the rebuilt name-to-node-index map
retain exactly the nodes with a directed path from `T` in the
pre-prune graph.  In the classic pickler (`src/lib.rs`) the
rename/instantiation/file-map tables are filtered by the same
reachability; in the graph pickler (`src/pickle.rs`) the
`declarations` and `usages` tables are left unchanged, but a pruned
declaration still contributes no output because the topological
emission loop only emits nodes of the pruned graph, all of which are
reachable from `T`. -/
theorem pruneGraph_reachability (p : GraphState) (q : PickleLib) (t : Name)
    (hpt : t ∈ p.nodes) (hpnd : p.nodes.Nodup) (hpg : p.graphNodes = p.nodes)
    (hpe : ∀ e ∈ p.edges, e.2 ∈ p.nodes)
    (hqt : t ∈ q.nodes) (hqnd : q.nodes.Nodup) (hqg : q.graphNodes = q.nodes)
    (hqe : ∀ e ∈ q.edges, e.2 ∈ q.nodes) :
    (∃ p', pruneGraph p t = Except.ok p' ∧
      (∀ n, n ∈ p'.nodes ↔ n ∈ p.nodes ∧ ReachRel p.edges t n) ∧
      p'.graphNodes = p'.nodes ∧
      p'.declarations = p.declarations ∧ p'.usages = p.usages ∧
      (∀ (declared : List Name) (fuel : Nat) (order : List Name),
        pickleLoop p'.edges fuel (keptNodes declared p'.nodes) = some order →
        ∀ n ∈ order, n ∈ p.nodes ∧ ReachRel p.edges t n)) ∧
    (∃ q', pruneGraphLib q t = Except.ok q' ∧
      (∀ n, n ∈ q'.nodes ↔ n ∈ q.nodes ∧ ReachRel q.edges t n) ∧
      (∀ kv, kv ∈ q'.renameTable ↔ kv ∈ q.renameTable ∧ ReachRel q.edges t kv.1) ∧
      (∀ n, n ∈ q'.instTable ↔ n ∈ q.instTable ∧ ReachRel q.edges t n) ∧
      (∀ kv, kv ∈ q'.moduleFileMap ↔ kv ∈ q.moduleFileMap ∧ ReachRel q.edges t kv.1)) ∧
    (∀ (r : GraphState) (u : Name), r.graphNodes.contains u = false →
      pruneGraph r u = Except.error ("Module " ++ u ++ " not found!")) := by
  have hpc : p.graphNodes.contains t = true := by
    rw [hpg]
    simpa using hpt
  have hqc : q.graphNodes.contains t = true := by
    rw [hqg]
    simpa using hqt
  have hpiff := dijkstraReach_mem_iff p.edges p.nodes t hpnd hpt hpe
  have hqiff := dijkstraReach_mem_iff q.edges q.nodes t hqnd hqt hqe
  refine ⟨?_, ?_, ?_⟩
  · refine ⟨{ p with
        nodes := p.nodes.filter
          (fun n => (dijkstraReach p.nodes.length p.edges t).contains n),
        edges := p.edges.filter
          (fun e => (dijkstraReach p.nodes.length p.edges t).contains e.1
            && (dijkstraReach p.nodes.length p.edges t).contains e.2),
        graphNodes := p.nodes.filter
          (fun n => (dijkstraReach p.nodes.length p.edges t).contains n) },
      ?_, ?_, rfl, rfl, rfl, ?_⟩
    · rw [pruneGraph, if_pos hpc]
    · intro n
      simp only [List.mem_filter, List.elem_eq_mem, decide_eq_true_eq]
      constructor
      · rintro ⟨hn, hr⟩
        exact ⟨hn, (hpiff n).mp (by simpa using hr)⟩
      · rintro ⟨hn, hr⟩
        exact ⟨hn, by simpa using (hpiff n).mpr hr⟩
    · intro declared fuel order horder n hn
      have h1 : n ∈ keptNodes declared
          (p.nodes.filter (fun n => (dijkstraReach p.nodes.length p.edges t).contains n)) :=
        pickleLoop_subset _ fuel _ order horder n hn
      have h2 : n ∈ p.nodes.filter
          (fun n => (dijkstraReach p.nodes.length p.edges t).contains n) :=
        List.mem_of_mem_filter h1
      have h3 := List.mem_filter.mp h2
      exact ⟨h3.1, (hpiff n).mp (by simpa using h3.2)⟩
  · refine ⟨{ q with
        nodes := q.nodes.filter
          (fun n => (dijkstraReach q.nodes.length q.edges t).contains n),
        edges := q.edges.filter
          (fun e => (dijkstraReach q.nodes.length q.edges t).contains e.1
            && (dijkstraReach q.nodes.length q.edges t).contains e.2),
        graphNodes := q.graphNodes.filter
          (fun n => (dijkstraReach q.nodes.length q.edges t).contains n),
        renameTable := q.renameTable.filter
          (fun kv => (dijkstraReach q.nodes.length q.edges t).contains kv.1),
        instTable := q.instTable.filter
          (fun n => (dijkstraReach q.nodes.length q.edges t).contains n),
        moduleFileMap := q.moduleFileMap.filter
          (fun kv => (dijkstraReach q.nodes.length q.edges t).contains kv.1) },
      ?_, ?_, ?_, ?_, ?_⟩
    · rw [pruneGraphLib, if_pos hqc]
    · intro n
      simp only [List.mem_filter, List.elem_eq_mem, decide_eq_true_eq]
      constructor
      · rintro ⟨hn, hr⟩
        exact ⟨hn, (hqiff n).mp (by simpa using hr)⟩
      · rintro ⟨hn, hr⟩
        exact ⟨hn, by simpa using (hqiff n).mpr hr⟩
    · intro kv
      simp only [List.mem_filter, List.elem_eq_mem, decide_eq_true_eq]
      constructor
      · rintro ⟨hn, hr⟩
        exact ⟨hn, (hqiff kv.1).mp (by simpa using hr)⟩
      · rintro ⟨hn, hr⟩
        exact ⟨hn, by simpa using (hqiff kv.1).mpr hr⟩
    · intro n
      simp only [List.mem_filter, List.elem_eq_mem, decide_eq_true_eq]
      constructor
      · rintro ⟨hn, hr⟩
        exact ⟨hn, (hqiff n).mp (by simpa using hr)⟩
      · rintro ⟨hn, hr⟩
        exact ⟨hn, by simpa using (hqiff n).mpr hr⟩
    · intro kv
      simp only [List.mem_filter, List.elem_eq_mem, decide_eq_true_eq]
      constructor
      · rintro ⟨hn, hr⟩
        exact ⟨hn, (hqiff kv.1).mp (by simpa using hr)⟩
      · rintro ⟨hn, hr⟩
        exact ⟨hn, by simpa using (hqiff kv.1).mpr hr⟩
  · intro r u hcon
    rw [pruneGraph, if_neg (by rw [hcon]; exact Bool.false_ne_true)]

/-- Witness for C2 on a concrete three-node graph with edge `a → b`:
pruning from `a` succeeds and keeps exactly the nodes reachable from
`a`. -/
theorem pruneGraph_reachability_witness :
    ∃ p', pruneGraph
        (⟨["a", "b", "c"], [("a", "b")], ["a", "b", "c"], [], []⟩ : GraphState) "a"
      = Except.ok p' ∧
      ∀ n, n ∈ p'.nodes ↔ n ∈ ["a", "b", "c"] ∧ ReachRel [("a", "b")] "a" n := by
  obtain ⟨⟨p', h1, h2, -⟩, -, -⟩ :=
    pruneGraph_reachability
      (⟨["a", "b", "c"], [("a", "b")], ["a", "b", "c"], [], []⟩ : GraphState)
      (⟨["a"], [], ["a"], [], [], []⟩ : PickleLib) "a"
      (by decide) (by decide) rfl (by decide) (by decide) (by decide) rfl (by decide)
  exact ⟨p', h1, h2⟩

/- C1: topological emission -/

theorem isSink_iff (edges : List (Name × Name)) (nodes : List Name) (n : Name) :
    isSink edges nodes n = true ↔ ∀ e ∈ edges, ¬(e.1 = n ∧ e.2 ∈ nodes) := by
  simp only [isSink, List.all_eq_true, Bool.not_eq_true', Bool.and_eq_false_iff,
    beq_eq_false_iff_ne, ne_eq]
  constructor
  · intro h e he
    rintro ⟨h1, h2⟩
    rcases h e he with hc | hc
    · exact hc h1
    · exact (by simpa using hc : e.2 ∉ nodes) h2
  · intro h e he
    by_cases h1 : e.1 = n
    · refine Or.inr ?_
      have : e.2 ∉ nodes := fun h2 => h e he ⟨h1, h2⟩
      simpa using this
    · exact Or.inl h1

theorem GStep_erase_mono (nodes : List Name) (edges : List (Name × Name)) (x : Name)
    (a b : Name) (h : GStep (nodes.erase x) edges a b) : GStep nodes edges a b :=
  ⟨List.mem_of_mem_erase h.1, List.mem_of_mem_erase h.2.1, h.2.2⟩

theorem Acyclic_erase (nodes : List Name) (edges : List (Name × Name)) (x : Name)
    (h : Acyclic nodes edges) : Acyclic (nodes.erase x) edges := by
  intro n hcyc
  exact h n (Relation.TransGen.mono (GStep_erase_mono nodes edges x) hcyc)

theorem sink_aux (edges : List (Name × Name)) : ∀ (k : Nat) (S : List Name),
    S.length ≤ k → Acyclic S edges → ∀ x ∈ S,
    ∃ n ∈ S, Relation.ReflTransGen (GStep S edges) x n ∧ isSink edges S n = true := by
  intro k
  induction k with
  | zero =>
    intro S hlen _ x hx
    rw [List.length_eq_zero.mp (Nat.le_zero.mp hlen)] at hx
    cases hx
  | succ k ih =>
    intro S hlen hac x hx
    by_cases hs : isSink edges S x = true
    · exact ⟨x, hx, Relation.ReflTransGen.refl, hs⟩
    · have hedge : ∃ e ∈ edges, e.1 = x ∧ e.2 ∈ S := by
        by_contra hcon
        push_neg at hcon
        exact hs ((isSink_iff edges S x).mpr (fun e he hpair => hcon e he hpair.1 hpair.2))
      obtain ⟨e, he, he1, he2⟩ := hedge
      have hmx : e.2 ≠ x := by
        intro heq
        refine hac x (Relation.TransGen.single ⟨hx, hx, ?_⟩)
        have hpe : (e.1, e.2) ∈ edges := by simpa using he
        rw [he1, heq] at hpe
        exact hpe
      have hmS' : e.2 ∈ S.erase x := (List.mem_erase_of_ne hmx).mpr he2
      have hlen' : (S.erase x).length ≤ k := by
        rw [List.length_erase_of_mem hx]
        omega
      obtain ⟨n, hnS', hreach', hsink'⟩ :=
        ih (S.erase x) hlen' (Acyclic_erase S edges x hac) e.2 hmS'
      have hnS : n ∈ S := List.mem_of_mem_erase hnS'
      have hreach : Relation.ReflTransGen (GStep S edges) x n :=
        Relation.ReflTransGen.head ⟨hx, he2, he1 ▸ he⟩
          (Relation.ReflTransGen.mono (GStep_erase_mono S edges x) hreach')
      by_cases hback : ∃ e' ∈ edges, e'.1 = n ∧ e'.2 = x
      · obtain ⟨e', he', h1, h2⟩ := hback
        exfalso
        refine hac x (Relation.TransGen.tail ?_ ⟨hnS, hx, ?_⟩)
        · exact Relation.TransGen.head' ⟨hx, he2, he1 ▸ he⟩
            (Relation.ReflTransGen.mono (GStep_erase_mono S edges x) hreach')
        · rw [← h1, ← h2]
          exact he'
      · push_neg at hback
        refine ⟨n, hnS, hreach, ?_⟩
        rw [isSink_iff]
        rintro e' he' ⟨h1, h2⟩
        by_cases hx2 : e'.2 = x
        · exact hback e' he' h1 hx2
        · exact (isSink_iff edges (S.erase x) n).mp hsink' e' he'
            ⟨h1, (List.mem_erase_of_ne hx2).mpr h2⟩

theorem pickleLoop_success (edges : List (Name × Name)) : ∀ (fuel : Nat) (nodes : List Name),
    Acyclic nodes edges → nodes.Nodup → nodes.length ≤ fuel →
    ∃ l, pickleLoop edges fuel nodes = some l ∧ l.Perm nodes ∧
      ∀ a b, (a, b) ∈ edges → a ∈ nodes → b ∈ nodes → List.Sublist [b, a] l := by
  intro fuel
  induction fuel with
  | zero =>
    intro nodes _ _ hlen
    have hnil : nodes = [] := List.length_eq_zero.mp (Nat.le_zero.mp hlen)
    subst hnil
    exact ⟨[], by rw [pickleLoop]; rfl, List.Perm.refl [], fun a b _ ha _ => absurd ha (by simp)⟩
  | succ fuel ih =>
    intro nodes hac hnd hlen
    by_cases hemp : nodes.isEmpty = true
    · have hnil : nodes = [] := by
        cases nodes with
        | nil => rfl
        | cons y ys => cases hemp
      subst hnil
      exact ⟨[], by rw [pickleLoop]; rfl, List.Perm.refl [], fun a b _ ha _ => absurd ha (by simp)⟩
    · have hne : nodes ≠ [] := by
        intro hcon
        rw [hcon] at hemp
        exact hemp rfl
      obtain ⟨x, hxmem⟩ := List.exists_mem_of_ne_nil nodes hne
      obtain ⟨n, hnmem, -, hsink⟩ :=
        sink_aux edges nodes.length nodes (Nat.le_refl _) hac x hxmem
      have hfind : (nodes.find? (fun n => isSink edges nodes n)).isSome := by
        rw [List.find?_isSome]
        exact ⟨n, hnmem, hsink⟩
      obtain ⟨n0, hfeq⟩ := Option.isSome_iff_exists.mp hfind
      have hn0mem : n0 ∈ nodes := List.mem_of_find?_eq_some hfeq
      have hn0sink : isSink edges nodes n0 = true := List.find?_some hfeq
      have hlen' : (nodes.erase n0).length ≤ fuel := by
        rw [List.length_erase_of_mem hn0mem]
        have : 1 ≤ nodes.length := List.length_pos.mpr hne
        omega
      obtain ⟨l', hl', hperm', htopo'⟩ :=
        ih (nodes.erase n0) (Acyclic_erase nodes edges n0 hac) (List.Nodup.erase n0 hnd) hlen'
      refine ⟨n0 :: l', ?_, ?_, ?_⟩
      · rw [pickleLoop, if_neg hemp]
        simp only [hfeq, hl', Option.map_some']
      · exact ((hperm'.cons n0).trans (List.perm_cons_erase hn0mem).symm)
      · intro a b hab ha hb
        by_cases han : a = n0
        · exfalso
          subst han
          exact (isSink_iff edges nodes a).mp hn0sink (a, b) hab ⟨rfl, hb⟩
        · by_cases hbn : b = n0
          · subst hbn
            have hal' : a ∈ l' := (hperm'.mem_iff).mpr ((List.mem_erase_of_ne han).mpr ha)
            exact List.Sublist.cons₂ b (List.singleton_sublist.mpr hal')
          · have ha' : a ∈ nodes.erase n0 := (List.mem_erase_of_ne han).mpr ha
            have hb' : b ∈ nodes.erase n0 := (List.mem_erase_of_ne hbn).mpr hb
            exact List.Sublist.cons n0 (htopo' a b hab ha' hb')

theorem pickleLoop_none_of_no_sink (edges : List (Name × Name)) : ∀ (fuel : Nat)
    (nodes : List Name), nodes ≠ [] → (∀ n ∈ nodes, isSink edges nodes n = false) →
    pickleLoop edges fuel nodes = none := by
  intro fuel
  induction fuel with
  | zero =>
    intro nodes hne _
    rw [pickleLoop, if_neg (by simpa using hne)]
  | succ fuel ih =>
    intro nodes hne hall
    rw [pickleLoop, if_neg (by simpa using hne)]
    have hfind : nodes.find? (fun n => isSink edges nodes n) = none := by
      rw [List.find?_eq_none]
      intro n hn
      rw [hall n hn]
      exact Bool.false_ne_true
    simp only [hfind]
    exact ih nodes hne hall

theorem acyclic_of_rank (nodes : List Name) (edges : List (Name × Name)) (f : Name → Nat)
    (h : ∀ e ∈ edges, f e.1 < f e.2) : Acyclic nodes edges := by
  intro n hcyc
  have hmono : ∀ a b, Relation.TransGen (GStep nodes edges) a b → f a < f b := by
    intro a b htg
    induction htg with
    | single h1 => exact h _ h1.2.2
    | tail _ hstep ih => exact lt_trans ih (h _ hstep.2.2)
  exact lt_irrefl (f n) (hmono n n hcyc)

/-- C1: the emission loop of `get_pickle` restricted to declared
nodes.  When that restricted graph is acyclic the loop succeeds with
budget equal to the node count and yields a removal order that is a
permutation of the declared nodes in which every node appears only
after all nodes it has outgoing edges to; `get_pickle` then emits
exactly the non-excluded declared nodes, each exactly once.  When at
some state nodes remain but none has outdegree 0, the loop fails with
the cyclic-dependency error for every budget. -/
theorem getPickle_topological_correct (declared exclude nodes : List Name)
    (edges : List (Name × Name)) (hnd : (keptNodes declared nodes).Nodup)
    (hac : Acyclic (keptNodes declared nodes) edges) :
    ∃ order,
      pickleLoop edges (keptNodes declared nodes).length (keptNodes declared nodes)
        = some order ∧
      getPickle declared exclude nodes edges
        = some (order.filter (fun n => !exclude.contains n)) ∧
      order.Perm (keptNodes declared nodes) ∧
      (∀ n ∈ keptNodes declared nodes, exclude.contains n = false →
        (order.filter (fun n => !exclude.contains n)).count n = 1) ∧
      (∀ a b, (a, b) ∈ edges → a ∈ keptNodes declared nodes → b ∈ keptNodes declared nodes →
        List.Sublist [b, a] order) ∧
      (∀ (ns : List Name) (fuel : Nat), ns ≠ [] →
        (∀ n ∈ ns, isSink edges ns n = false) → pickleLoop edges fuel ns = none) := by
  obtain ⟨order, horder, hperm, htopo⟩ :=
    pickleLoop_success edges (keptNodes declared nodes).length (keptNodes declared nodes)
      hac hnd (Nat.le_refl _)
  refine ⟨order, horder, ?_, hperm, ?_, htopo,
    fun ns fuel => pickleLoop_none_of_no_sink edges fuel ns⟩
  · rw [getPickle, horder]
    rfl
  · intro n hn hex
    have hordnd : order.Nodup := (hperm.nodup_iff).mpr hnd
    have hfilnd : (order.filter (fun n => !exclude.contains n)).Nodup :=
      List.Nodup.filter _ hordnd
    have hmem : n ∈ order.filter (fun n => !exclude.contains n) :=
      List.mem_filter.mpr ⟨hperm.mem_iff.mpr hn, by rw [hex]; rfl⟩
    exact count_one_of_nodup_mem hfilnd hmem

/-- Witness for C1 on the acyclic graph `a → b → c` with an
undeclared node `u` and `b` excluded: the loop removes `c, b, a` and
`get_pickle` emits `c` then `a`. -/
theorem getPickle_topological_correct_witness :
    ∃ order,
      pickleLoop [("a", "b"), ("b", "c"), ("a", "u")] 3
          (keptNodes ["a", "b", "c"] ["a", "b", "c", "u"]) = some order ∧
      getPickle ["a", "b", "c"] ["b"] ["a", "b", "c", "u"] [("a", "b"), ("b", "c"), ("a", "u")]
        = some (order.filter (fun n => !(["b"] : List Name).contains n)) ∧
      order.Perm (keptNodes ["a", "b", "c"] ["a", "b", "c", "u"]) ∧
      (∀ a b, (a, b) ∈ [("a", "b"), ("b", "c"), ("a", "u")] →
        a ∈ keptNodes ["a", "b", "c"] ["a", "b", "c", "u"] →
        b ∈ keptNodes ["a", "b", "c"] ["a", "b", "c", "u"] →
        List.Sublist [b, a] order) := by
  obtain ⟨order, h1, h2, h3, -, h5, -⟩ :=
    getPickle_topological_correct ["a", "b", "c"] ["b"] ["a", "b", "c", "u"]
      [("a", "b"), ("b", "c"), ("a", "u")] (by decide)
      (acyclic_of_rank _ _
        (fun n => if n = "a" then 0 else if n = "b" then 1 else if n = "c" then 2 else 3)
        (by decide))
  exact ⟨order, h1, h2, h3, h5⟩
